import Mathlib

/-!
Verification of the Virgo stock data layer.

Shallow embedding of the core of the `qiuosier/Virgo` repository:

* `virgo_stock/alpha_vantage.py` — the rate-limited `AlphaVantageAPI` client
  (request history pruning, sliding-window wait computation, response
  classification, retry driver);
* `virgo_stock/source.py` — the cache-aware `AlphaVantage` data source
  (daily snapshot merge and compaction, intraday per-day extraction,
  backward date search);
* `virgo_stock/stock.py` — the `Stock` series accessor
  (`DataPoint.from_list` and the weekly/monthly aggregation loop).

Pure fragments of the Python code are translated into executable Lean
functions; time is passed explicitly (`now` parameters), file storage is
modelled as association lists keyed by date, and a cache file whose CSV
contents cannot be parsed is represented by `none`.
-/

namespace Virgo

/-! ## Rate-limited API client (`alpha_vantage.py`) -/

/-- One entry of `AlphaVantageAPI.histories[api_key]`: a dictionary with
keys `"time"` (the request time) and `"url"`.  Times are modelled as
integers (seconds). -/
structure HistoryEntry where
  time : Int
  url : String
deriving DecidableEq, Repr

/-- `AlphaVantageAPI.__clean_history`: pops entries from the left of the
deque while the front entry is strictly older than `now - 60` seconds,
stopping at the first entry that is not. -/
def clean_history (now : Int) : List HistoryEntry → List HistoryEntry
  | [] => []
  | item :: rest =>
    if item.time < now - 60 then clean_history now rest
    else item :: rest

/-- `self.limits.get(self.api_key, 5)`: the per-minute request limit for a
key, defaulting to 5. -/
def lookupLimit (limits : List (String × Nat)) (key : String) : Nat :=
  ((limits.lookup key).getD 5)

/-- Python `history[-limit]` for `limit ≥ 1`: the element `limit` places
from the end of the list. -/
def nthFromEnd (history : List HistoryEntry) (limit : Nat) : HistoryEntry :=
  history.getD (history.length - limit) ⟨0, ""⟩

/-- The sleep decision in `AlphaVantageAPI.__get`, applied to the already
pruned history: if the history holds at least `limit` entries the client
sleeps for `history[-limit].time + 61 - now` seconds (returned as
`some wait`); otherwise it does not sleep (`none`). -/
def waitDecision (limit : Nat) (now : Int) (history : List HistoryEntry) : Option Int :=
  if limit ≤ history.length then
    some ((nthFromEnd history limit).time + 61 - now)
  else none

/-- `AlphaVantageAPI.__init__`: `self.histories[api_key] = deque()`,
an unconditional replacement in the class-level `histories` dictionary. -/
def initHistories (histories : List (String × List HistoryEntry)) (key : String) :
    List (String × List HistoryEntry) :=
  if histories.any (fun kv => kv.fst == key) then
    histories.map (fun kv => if kv.fst == key then (key, []) else kv)
  else histories ++ [(key, [])]

/-! ### Response classification (`AlphaVantageAPI.__check_response`) -/

/-- A JSON value, as far as `__check_response` inspects it: either a string
or something else. -/
inductive JsonVal where
  | str : String → JsonVal
  | other : JsonVal
deriving DecidableEq, Repr

/-- The body of an HTTP response: either it fails to parse as JSON (the
CSV payload case, `response.json()` raises `ValueError`) or it is a JSON
object given by its key-value pairs. -/
inductive Body where
  | csv : Body
  | jsonDict : List (String × JsonVal) → Body
deriving DecidableEq, Repr

/-- An HTTP response as inspected by `__check_response`. -/
structure Response where
  status_code : Nat
  body : Body
deriving DecidableEq, Repr

/-- The two exception classes raised by `__check_response`:
`RequestException` (retried by `__try`) and `ValueError` (not retried). -/
inductive ApiError where
  | requestException : String → ApiError
  | valueError : String → ApiError
deriving DecidableEq, Repr

/-- Python `pat in s` on strings: `pat` occurs as a contiguous substring. -/
def isSubstring (pat s : List Char) : Bool :=
  (List.range (s.length + 1)).any (fun i => pat.isPrefixOf (s.drop i))

/-- The `"Invalid API call"` marker tested by `__check_response`. -/
def invalidMarker : List Char := "Invalid API call".data

/-- `AlphaVantageAPI.__check_response`: non-200 status raises
`RequestException`; a body that is not JSON passes; a JSON object with
exactly one key whose value is a string raises `ValueError` when the value
contains the invalid-symbol marker and `RequestException` otherwise; any
other JSON shape passes. -/
def check_response (r : Response) : Except ApiError Unit :=
  if r.status_code ≠ 200 then
    .error (.requestException ("Unexpected Status Code: " ++ toString r.status_code))
  else
    match r.body with
    | .csv => .ok ()
    | .jsonDict kvs =>
      match kvs with
      | [(_, .str v)] =>
        if isSubstring invalidMarker v.data then .error (.valueError v)
        else .error (.requestException v)
      | _ => .ok ()

/-! ### Retry driver (`AlphaVantageAPI.__try` / `Aries.tasks.FunctionTask`) -/

/-- What a single call of `AlphaVantageAPI.__get` runs into at the network
layer: `requests.get` raises a network error, or it returns a response
(which `__check_response` then classifies). -/
inductive RawAttempt where
  | netError : RawAttempt
  | response : Response → RawAttempt
deriving DecidableEq, Repr

/-- The outcome of one attempt of `AlphaVantageAPI.__get`: a network-layer
error is a `RequestException`; otherwise the response is validated by
`check_response` and returned on success. -/
def attemptOutcome : RawAttempt → Except ApiError Response
  | .netError => .error (.requestException "network error")
  | .response r =>
    match check_response r with
    | .error e => .error e
    | .ok _ => .ok r

/-- Only `RequestException` is in the `exceptions=RequestException` class
retried by `__try`; `ValueError` is not. -/
def isRetryable : ApiError → Bool
  | .requestException _ => true
  | .valueError _ => false

/-- `attemptOutcome` is an error of the retryable class. -/
def isTransientAttempt (raw : RawAttempt) : Bool :=
  match attemptOutcome raw with
  | .error e => isRetryable e
  | .ok _ => false

deriving instance DecidableEq for Except

/-- Result of the retry driver: the final result, the number of attempts
made, and the list of backoff sleeps (seconds) performed between
attempts. -/
structure RetryResult where
  result : Except ApiError Response
  attempts : Nat
  delays : List Nat
deriving DecidableEq, Repr

/-- Modelled from the spec: `Aries.tasks.FunctionTask.run_and_retry`
(package `Aries`, not part of this repository's sources) as invoked by
`AlphaVantageAPI.__try` with `max_retry`, `exceptions=RequestException`,
`base_interval=30`, `retry_pattern="linear"` — up to `max_retry` total
attempts, retrying only errors of the designated retryable class with a
linear backoff starting at `base` seconds (base, 2*base, ...), raising
the last error after the attempts are exhausted and raising
non-retryable errors immediately.  `outcomes` lists what each successive
attempt runs into; `attemptNo` is the 1-based index of the next attempt. -/
def runAndRetryAux (base : Nat) (attemptNo : Nat) : List RawAttempt → RetryResult
  | [] => ⟨.error (.requestException "exhausted"), attemptNo - 1, []⟩
  | raw :: rest =>
    match attemptOutcome raw with
    | .ok r => ⟨.ok r, attemptNo, []⟩
    | .error e =>
      if isRetryable e then
        if rest.isEmpty then ⟨.error e, attemptNo, []⟩
        else
          let tail := runAndRetryAux base (attemptNo + 1) rest
          ⟨tail.result, tail.attempts, base * attemptNo :: tail.delays⟩
      else ⟨.error e, attemptNo, []⟩

/-- The retry loop of `AlphaVantageAPI.__try` with its defaults:
`max_retry=5` attempts are modelled by passing `outcomes` of length 5,
`base_interval=30`. -/
def runAndRetry (outcomes : List RawAttempt) : RetryResult :=
  runAndRetryAux 30 1 outcomes

/-! ## Daily cache merge and compaction (`source.py`) -/

/-- One row of the daily series CSV (a Daily Bar).  Prices are modelled as
integers; `timestamp` is a date modelled as a number (ordering and
equality are all the merge logic uses). -/
structure DailyRow where
  timestamp : Nat
  val_open : Int
  val_high : Int
  val_low : Int
  val_close : Int
  adjusted_close : Int
  volume : Int
  dividend_amount : Int
  split_coefficient : Int
deriving DecidableEq, Repr

/-- A daily snapshot cache file: its date (the suffix of its filename,
which orders filenames chronologically for one symbol) and its parsed
contents — `none` when `pd.read_csv` raises on the file (corrupt CSV). -/
structure CacheFile where
  date : Nat
  rows : Option (List DailyRow)
deriving DecidableEq, Repr

/-- One step of the dictionary construction in `__merge_daily_cache`:
`if key in data: continue; data[key] = row` — insertion order is kept and
the first row seen for a timestamp wins. -/
def insertRow (data : List DailyRow) (row : DailyRow) : List DailyRow :=
  if data.any (fun r => r.timestamp == row.timestamp) then data
  else data ++ [row]

/-- Reading one cache file inside `__merge_daily_cache`: a file whose CSV
fails to parse is logged and skipped (`except: continue`); otherwise each
of its rows is offered to the dictionary in order. -/
def readFileRows (data : List DailyRow) (f : CacheFile) : List DailyRow :=
  match f.rows with
  | none => data
  | some rows => rows.foldl insertRow data

/-- Insert a row into a list kept in descending timestamp order. -/
def insertDesc (row : DailyRow) : List DailyRow → List DailyRow
  | [] => [row]
  | r :: rs =>
    if r.timestamp ≤ row.timestamp then row :: r :: rs
    else r :: insertDesc row rs

/-- `keys.sort(reverse=True)` followed by `[data[key] for key in keys]`:
arrange the collected rows in descending timestamp order (the timestamps
are pairwise distinct, so this order is unique). -/
def sortRowsDesc (rows : List DailyRow) : List DailyRow :=
  rows.foldr insertDesc []

/-- `AlphaVantage.__merge_daily_cache`: read every file (in the order the
cache folder enumerated them) into a timestamp-keyed dictionary where the
first occurrence per timestamp wins, then emit the rows by descending
timestamp. -/
def merge_daily_cache (files : List CacheFile) : List DailyRow :=
  sortRowsDesc (files.foldl readFileRows [])

/-- The first row carrying timestamp `t` in scanning order: files in
enumeration order, rows within a file in order, unparseable files
skipped.  This is the row `__merge_daily_cache` keeps for `t`. -/
def firstRowFor : List CacheFile → Nat → Option DailyRow
  | [], _ => none
  | f :: rest, t =>
    match f.rows with
    | none => firstRowFor rest t
    | some rows =>
      match rows.find? (fun r => r.timestamp == t) with
      | some r => some r
      | none => firstRowFor rest t

/-- `AlphaVantage.__save_data_frame` restricted to one symbol's folder:
an empty frame is not saved; otherwise the file for `today` is written
(replacing a file of the same name, appending a new one otherwise). -/
def save_data_frame (cache : List CacheFile) (today : Nat) (df : List DailyRow) :
    List CacheFile :=
  if df.isEmpty then cache
  else if cache.any (fun f => f.date == today) then
    cache.map (fun f => if f.date == today then ⟨today, some df⟩ else f)
  else cache ++ [⟨today, some df⟩]

/-- Insert a cache file into a list kept in descending date order
(`files.sort(key=lambda x: x.name, reverse=True)`; for one symbol the
name order is the date order). -/
def insertFileDesc (f : CacheFile) : List CacheFile → List CacheFile
  | [] => [f]
  | g :: gs =>
    if g.date ≤ f.date then f :: g :: gs
    else g :: insertFileDesc f gs

/-- Sort cache files by name (date) in descending order. -/
def sortFilesDesc (files : List CacheFile) : List CacheFile :=
  files.foldr insertFileDesc []

/-- The cache-miss branch of `AlphaVantage.__get_daily_data` for one
symbol, acting on the folder state `cache`: an empty response is returned
without caching; otherwise the response is saved as today's snapshot, all
snapshot files are enumerated and merged, the merged frame is re-saved as
today's snapshot, and every enumerated file except the first of the
name-descending order is deleted unless its name is today's.  Returns the
new folder state and the returned frame. -/
def get_daily_data_miss (cache : List CacheFile) (today : Nat)
    (response : List DailyRow) : List CacheFile × List DailyRow :=
  if response.isEmpty then (cache, [])
  else
    let c1 := save_data_frame cache today response
    let files := c1
    if files.isEmpty then (c1, response)
    else
      let merged := merge_daily_cache files
      let c2 := save_data_frame c1 today merged
      match sortFilesDesc files with
      | [] => (c2, merged)
      | keep :: _ =>
        (c2.filter (fun f => f.date == keep.date || f.date == today), merged)

/-- A sequence of daily-cache-miss fetches on successive days: fold
`get_daily_data_miss` over the (day, response) pairs starting from an
empty cache folder. -/
def runFetches (days : List (Nat × List DailyRow)) : List CacheFile :=
  days.foldl (fun c p => (get_daily_data_miss c p.fst p.snd).fst) []

/-- The cache-hit branch of `AlphaVantage.__get_daily_data`: the valid
snapshot is read with `pd.read_csv` directly (no `try`), so a parse
failure propagates; the network is not consulted.  The boolean records
whether a network fetch happened. -/
def get_daily_data_hit (parsed : Option (List DailyRow)) :
    Except String (List DailyRow) × Bool :=
  match parsed with
  | none => (.error "cache file failed to parse", false)
  | some rows => (.ok rows, false)

/-! ## Intraday per-day extraction (`AlphaVantage.__intraday_get_full_data`) -/

/-- An intraday bar: its calendar date (`df['timestamp'].dt.normalize()`)
and its time of day in minutes (`16:00:00` is minute 960). -/
structure IntradayBar where
  date : Nat
  time : Nat
deriving DecidableEq, Repr

/-- The distinct dates present in a batch, in first-appearance order
(the groups of `df.groupby(df['timestamp'].dt.normalize())`). -/
def datesOf (batch : List IntradayBar) : List Nat :=
  (batch.map (fun b => b.date)).eraseDups

/-- `latest = max(dates)`: the most recent date present in the batch. -/
def latestDate (batch : List IntradayBar) : Nat :=
  (datesOf batch).foldl max 0

/-- The group of bars for one date. -/
def groupOf (batch : List IntradayBar) (d : Nat) : List IntradayBar :=
  batch.filter (fun b => b.date == d)

/-- The persistence decision of `__intraday_get_full_data` for the group of
date `d`: the group is written as a completed per-day cache file iff it
contains a bar at exactly 16:00:00 or `d` is not the latest date. -/
def intradayComplete (batch : List IntradayBar) (d : Nat) : Bool :=
  !((groupOf batch d).filter (fun b => b.time == 960)).isEmpty
    || d < latestDate batch

/-- The dates whose groups `__intraday_get_full_data` persists as per-day
cache files. -/
def completedDates (batch : List IntradayBar) : List Nat :=
  (datesOf batch).filter (fun d => intradayComplete batch d)

/-! ## Intraday backward date search (`AlphaVantage.get_intraday_series`) -/

/-- One pass of the `while` loop of `get_intraday_series`, with the
day-by-day data the loop observes abstracted as `dataAt : date ↦ rows`
(the cached or freshly fetched frame already filtered to that date).
`requested` is the caller's `date` argument; when it is `none` the date
tried is `today - dayDelta`.  After an iteration the loop continues only
when the date was unspecified, the frame is empty and the incremented
`day_delta` is still below 100.  The fuel counts the remaining permitted
iterations (`99 - dayDelta` at entry, so fuel 0 means `day_delta = 99`,
where the continuation test `day_delta + 1 < 100` is false and the loop
exits after the iteration in either case).  Returns the final frame and
the final value of `day_delta` (the number of dates tried). -/
def intradayAux (requested : Option Nat) (today : Nat)
    (dataAt : Nat → List IntradayBar) : Nat → Nat → List IntradayBar × Nat
  | 0, dayDelta => (dataAt (requested.getD (today - dayDelta)), dayDelta + 1)
  | fuel + 1, dayDelta =>
    let date := requested.getD (today - dayDelta)
    let df := dataAt date
    if requested.isNone && df.isEmpty && (dayDelta + 1 < 100) then
      intradayAux requested today dataAt fuel (dayDelta + 1)
    else (df, dayDelta + 1)

/-- `AlphaVantage.get_intraday_series` date-search structure: the loop
starts with `day_delta = 0` and can run at most 100 iterations. -/
def get_intraday_search (requested : Option Nat) (today : Nat)
    (dataAt : Nat → List IntradayBar) : List IntradayBar × Nat :=
  intradayAux requested today dataAt 99 0

/-- The per-day cache branch of one `get_intraday_series` iteration for
the target date: when the per-day cache file exists it is read with
`pd.read_csv` directly (no `try`), so a parse failure (`some none`)
propagates and `__intraday_get_full_data` is not called; only when no
per-day file exists (`none`) is the full recent batch obtained.  The
boolean records whether the full-batch path ran. -/
def get_intraday_series_cached
    (perDayFile : Option (Option (List IntradayBar)))
    (fullBatch : List IntradayBar) : Except String (List IntradayBar) × Bool :=
  match perDayFile with
  | some none => (.error "cache file failed to parse", false)
  | some (some rows) => (.ok rows, false)
  | none => (.ok fullBatch, true)

/-- The temporary-cache branch of `AlphaVantage.__intraday_get_full_data`:
an unexpired temporary cache file is read with `pd.read_csv` directly
(no `try`) and returned, so a parse failure (`some none`) propagates and
no network request is made; only with no valid temporary file (`none`)
does the network fetch run (whose per-day extraction is modelled by
`completedDates`).  The boolean records whether the network was
requested. -/
def intraday_get_full_data_cached
    (cachedFile : Option (Option (List IntradayBar)))
    (response : List IntradayBar) : Except String (List IntradayBar) × Bool :=
  match cachedFile with
  | some none => (.error "cache file failed to parse", false)
  | some (some rows) => (.ok rows, false)
  | none => (.ok response, true)

/-! ## Series accessor (`stock.py`) -/

/-- A calendar date (`datetime.date`). -/
structure Date where
  year : Nat
  month : Nat
  day : Nat
deriving DecidableEq, Repr

/-- Gregorian leap year test. -/
def is_leap (y : Nat) : Bool :=
  (y % 4 == 0 && y % 100 != 0) || y % 400 == 0

/-- Days in a month of the proleptic Gregorian calendar. -/
def days_in_month (y m : Nat) : Nat :=
  if m == 2 then (if is_leap y then 29 else 28)
  else if m == 4 || m == 6 || m == 9 || m == 11 then 30
  else 31

/-- Ordinal day of the year (1 for January 1st). -/
def day_of_year (d : Date) : Nat :=
  ((List.range d.month).filter (fun m => 1 ≤ m)).foldl
    (fun acc m => acc + days_in_month d.year m) 0 + d.day

/-- Rata-die day number: day 1 is 0001-01-01 (a Monday). -/
def rata_die (d : Date) : Nat :=
  365 * (d.year - 1) + (d.year - 1) / 4 - (d.year - 1) / 100
    + (d.year - 1) / 400 + day_of_year d

/-- ISO weekday: Monday = 1 ... Sunday = 7 (`date.isocalendar()[2]`). -/
def weekday_iso (d : Date) : Nat :=
  (rata_die d - 1) % 7 + 1

/-- Auxiliary quantity for the ISO week count: the weekday of December
31st of year `y`. -/
def p_iso (y : Nat) : Nat :=
  (y + y / 4 - y / 100 + y / 400) % 7

/-- Number of ISO weeks in year `y` (52 or 53). -/
def iso_weeks_in_year (y : Nat) : Nat :=
  if p_iso y == 4 || p_iso (y - 1) == 3 then 53 else 52

/-- `date.isocalendar()[0]` and `[1]`: the ISO year and ISO week number of
a date. -/
def isocalendar (d : Date) : Nat × Nat :=
  let wd := weekday_iso d
  let doy := day_of_year d
  let w := (doy + 10 - wd) / 7
  if w < 1 then (d.year - 1, iso_weeks_in_year (d.year - 1))
  else if iso_weeks_in_year d.year < w then (d.year + 1, 1)
  else (d.year, w)

/-- The `transform_func` of `Stock.weekly_series`:
`"%s_%s" % (isocalendar()[0], isocalendar()[1])`. -/
def weeklyKey (d : Date) : String :=
  toString (isocalendar d).fst ++ "_" ++ toString (isocalendar d).snd

/-- The `transform_func` of `Stock.monthly_series`:
`"%s_%s" % (timestamp.year, timestamp.month)`. -/
def monthKey (d : Date) : String :=
  toString d.year ++ "_" ++ toString d.month

/-- `stock.DataPoint`: one OHLCV data point.  The constructor argument
names `val_open` etc. follow `DataPoint.__init__`. -/
structure DataPoint where
  timestamp : Date
  val_open : Int
  val_high : Int
  val_low : Int
  val_close : Int
  volume : Int
deriving DecidableEq, Repr

/-- `DataPoint.from_list`: aggregates a list of data points into one —
timestamp and open from the first point, close from the last, high/low by
scanning the whole list starting from the first point's values, volume as
the sum; an empty list raises (`none`). -/
def from_list : List DataPoint → Option DataPoint
  | [] => none
  | first :: rest =>
    some
      { timestamp := first.timestamp
        val_open := first.val_open
        val_high :=
          (first :: rest).foldl
            (fun acc p => if acc < p.val_high then p.val_high else acc)
            first.val_high
        val_low :=
          (first :: rest).foldl
            (fun acc p => if p.val_low < acc then p.val_low else acc)
            first.val_low
        val_close := ((first :: rest).getLast (List.cons_ne_nil _ _)).val_close
        volume := (first :: rest).foldl (fun acc p => acc + p.volume) 0 }

/-- Closing a run in `Stock.__aggregate_series`: if the run is non-empty,
reverse it (ascending within the period) and append its `from_list`
aggregate to the output. -/
def close_run (run acc : List DataPoint) : List DataPoint :=
  match from_list run.reverse with
  | none => acc
  | some dp => acc ++ [dp]

/-- The row loop of `Stock.__aggregate_series`: walk the rows in their
given order; when the transformed key differs from the previous row's key
(`prev` starts as Python `0`, modelled `none`, which no string equals),
close the pending run; then append the row to the run.  The final run is
closed after the input is exhausted. -/
def aggregate_loop (trans_func : Date → String) :
    List DataPoint → Option String → List DataPoint → List DataPoint → List DataPoint
  | [], _, run, acc => close_run run acc
  | p :: rest, prev, run, acc =>
    let k := trans_func p.timestamp
    if some k ≠ prev then
      aggregate_loop trans_func rest (some k) [p] (close_run run acc)
    else
      aggregate_loop trans_func rest (some k) (run ++ [p]) acc

/-- `Stock.__aggregate_series` over an already filtered daily series. -/
def aggregate_series (trans_func : Date → String) (rows : List DataPoint) :
    List DataPoint :=
  aggregate_loop trans_func rows none [] []

/-- `Stock.weekly_series`: aggregation keyed by ISO (year, week). -/
def weekly_series (rows : List DataPoint) : List DataPoint :=
  aggregate_series weeklyKey rows

/-- `Stock.monthly_series`: aggregation keyed by (year, month). -/
def monthly_series (rows : List DataPoint) : List DataPoint :=
  aggregate_series monthKey rows

/-- The maximal runs of consecutive rows sharing a key, in input order
(specification-side description of the grouping the loop performs). -/
def chunkRuns (trans_func : Date → String) : List DataPoint → List (List DataPoint)
  | [] => []
  | p :: rest =>
    (p :: rest.takeWhile (fun q => trans_func q.timestamp == trans_func p.timestamp)) ::
      chunkRuns trans_func
        (rest.dropWhile (fun q => trans_func q.timestamp == trans_func p.timestamp))
termination_by l => l.length
decreasing_by
  simp only [List.length_cons]
  exact Nat.lt_succ_of_le (List.dropWhile_sublist _).length_le

/-- Specification-side form of the aggregation: each maximal run,
reversed to ascending-within-period order, reduced by
`DataPoint.from_list`. -/
def runs_aggregated (trans_func : Date → String) (rows : List DataPoint) :
    List DataPoint :=
  (chunkRuns trans_func rows).filterMap (fun r => from_list r.reverse)

/-! ## Theorems -/

/-- Every entry surviving `clean_history` is at most 60 seconds old,
provided the history was recorded in chronological order (as the deque
is, being appended with the current time on each request). -/
theorem mem_clean_history (now : Int) :
    ∀ (h : List HistoryEntry), h.Pairwise (fun a b => a.time ≤ b.time) →
      ∀ e ∈ clean_history now h, now - 60 ≤ e.time := by
  intro h
  induction h with
  | nil => intro _ e he; simp [clean_history] at he
  | cons x rest ih =>
    intro hs e he
    by_cases hx : x.time < now - 60
    · rw [clean_history, if_pos hx] at he
      exact ih (List.Pairwise.of_cons hs) e he
    · rw [clean_history, if_neg hx] at he
      rcases List.mem_cons.mp he with rfl | hmem
      · omega
      · have h1 := (List.pairwise_cons.mp hs).1 e hmem
        omega

/-- The element Python's `history[-limit]` denotes is a member of the
list when the list holds at least `limit ≥ 1` entries. -/
theorem nthFromEnd_mem {history : List HistoryEntry} {limit : Nat}
    (h1 : 1 ≤ limit) (h2 : limit ≤ history.length) :
    nthFromEnd history limit ∈ history := by
  unfold nthFromEnd
  have hlt : history.length - limit < history.length := by omega
  rw [List.getD_eq_getElem _ _ hlt]
  exact List.getElem_mem hlt

/-- C2.  For every outbound request, with the per-key history recorded in
chronological order: after pruning entries older than 60 seconds, if the
history holds at least `N` entries (`N` the key's limit, default 5) the
client sleeps for exactly `history[-N].time + 61 - now` seconds — the
timestamp of the Nth-from-end entry plus 61 seconds minus now — and this
wait is strictly positive (never negative); with fewer than `N` entries
it does not sleep. -/
theorem rate_limit_wait (limits : List (String × Nat)) (key : String)
    (now : Int) (history : List HistoryEntry)
    (hsorted : history.Pairwise (fun a b => a.time ≤ b.time))
    (hlim : 1 ≤ lookupLimit limits key) :
    (lookupLimit limits key ≤ (clean_history now history).length →
      waitDecision (lookupLimit limits key) now (clean_history now history) =
        some ((nthFromEnd (clean_history now history)
          (lookupLimit limits key)).time + 61 - now) ∧
      0 < (nthFromEnd (clean_history now history)
          (lookupLimit limits key)).time + 61 - now) ∧
    ((clean_history now history).length < lookupLimit limits key →
      waitDecision (lookupLimit limits key) now (clean_history now history) = none) := by
  constructor
  · intro hlen
    constructor
    · rw [waitDecision, if_pos hlen]
    · have hmem := nthFromEnd_mem hlim hlen
      have hcl : history.Pairwise (fun a b => a.time ≤ b.time) := hsorted
      have := mem_clean_history now history hcl _ hmem
      omega
  · intro hlen
    rw [waitDecision, if_neg (by omega)]

/-- Witness for C2 at a concrete history. -/
theorem rate_limit_wait_witness :
    ([⟨41, ""⟩, ⟨50, ""⟩, ⟨60, ""⟩, ⟨70, ""⟩, ⟨80, ""⟩, ⟨90, ""⟩] :
        List HistoryEntry).Pairwise (fun a b => a.time ≤ b.time) ∧
    1 ≤ lookupLimit [] "k" ∧
    ((lookupLimit [] "k" ≤ (clean_history 100
        [⟨41, ""⟩, ⟨50, ""⟩, ⟨60, ""⟩, ⟨70, ""⟩, ⟨80, ""⟩, ⟨90, ""⟩]).length →
      waitDecision (lookupLimit [] "k") 100 (clean_history 100
        [⟨41, ""⟩, ⟨50, ""⟩, ⟨60, ""⟩, ⟨70, ""⟩, ⟨80, ""⟩, ⟨90, ""⟩]) =
        some ((nthFromEnd (clean_history 100
          [⟨41, ""⟩, ⟨50, ""⟩, ⟨60, ""⟩, ⟨70, ""⟩, ⟨80, ""⟩, ⟨90, ""⟩])
          (lookupLimit [] "k")).time + 61 - 100) ∧
      0 < (nthFromEnd (clean_history 100
          [⟨41, ""⟩, ⟨50, ""⟩, ⟨60, ""⟩, ⟨70, ""⟩, ⟨80, ""⟩, ⟨90, ""⟩])
          (lookupLimit [] "k")).time + 61 - 100) ∧
    ((clean_history 100
        [⟨41, ""⟩, ⟨50, ""⟩, ⟨60, ""⟩, ⟨70, ""⟩, ⟨80, ""⟩, ⟨90, ""⟩]).length <
        lookupLimit [] "k" →
      waitDecision (lookupLimit [] "k") 100 (clean_history 100
        [⟨41, ""⟩, ⟨50, ""⟩, ⟨60, ""⟩, ⟨70, ""⟩, ⟨80, ""⟩, ⟨90, ""⟩]) = none)) :=
  ⟨by decide, by decide,
    rate_limit_wait [] "k" 100
      [⟨41, ""⟩, ⟨50, ""⟩, ⟨60, ""⟩, ⟨70, ""⟩, ⟨80, ""⟩, ⟨90, ""⟩]
      (by decide) (by decide)⟩

/-- Looking up a key in the mapped (replace-entry) form of
`initHistories`. -/
theorem lookup_initHistories (histories : List (String × List HistoryEntry))
    (key : String) :
    (initHistories histories key).lookup key = some [] := by
  unfold initHistories
  by_cases hany : histories.any (fun kv => kv.fst == key)
  · rw [if_pos hany]
    induction histories with
    | nil => simp at hany
    | cons kv rest ih =>
      obtain ⟨k1, v1⟩ := kv
      by_cases hk : k1 = key
      · subst hk
        have hcons : List.map
            (fun kv => if (kv.fst == k1) = true then (k1, []) else kv)
            ((k1, v1) :: rest) =
            (k1, ([] : List HistoryEntry)) :: List.map
              (fun kv => if (kv.fst == k1) = true then (k1, []) else kv) rest := by
          rw [List.map_cons]
          congr 1
          exact if_pos (by simp)
        rw [hcons]
        simp [List.lookup]
      · have hk' : (k1 == key) = false := by simpa using hk
        have hne : (key == k1) = false := by
          simp only [beq_eq_false_iff_ne]
          exact fun hh => hk hh.symm
        have hany' : rest.any (fun kv => kv.fst == key) = true := by
          rcases (List.any_eq_true).mp hany with ⟨x, hx, hxk⟩
          rcases List.mem_cons.mp hx with rfl | hx'
          · exact absurd hxk (by simp [hk'])
          · exact (List.any_eq_true).mpr ⟨x, hx', hxk⟩
        have hcons : List.map
            (fun kv => if (kv.fst == key) = true then (key, []) else kv)
            ((k1, v1) :: rest) =
            (k1, v1) :: List.map
              (fun kv => if (kv.fst == key) = true then (key, []) else kv) rest := by
          rw [List.map_cons]
          congr 1
          exact if_neg (by simp [hk'])
        rw [hcons]
        have hstep : List.lookup key ((k1, v1) :: List.map
            (fun kv => if (kv.fst == key) = true then (key, []) else kv) rest) =
            List.lookup key (List.map
              (fun kv => if (kv.fst == key) = true then (key, []) else kv) rest) := by
          simp [List.lookup, hne]
        rw [hstep]
        exact ih hany'
  · rw [if_neg hany]
    induction histories with
    | nil => simp [List.lookup]
    | cons kv rest ih =>
      obtain ⟨k1, v1⟩ := kv
      simp only [List.any_cons, Bool.or_eq_true, not_or] at hany
      have hne : (key == k1) = false := by
        simp only [beq_eq_false_iff_ne]
        intro hh
        exact hany.1 (by simp [hh])
      have hstep : List.lookup key (((k1, v1) :: rest) ++ [(key, [])]) =
          List.lookup key (rest ++ [(key, [])]) := by
        simp [List.lookup, hne]
      rw [hstep]
      exact ih (by simpa using hany.2)

/-- C10.  Constructing a new `AlphaVantageAPI` with an API key resets the
class-level history of that key to an empty deque, so requests recorded
earlier under the key are gone, and the next request's rate-limit check —
pruning and then the wait decision over the key's (now empty) history —
does not wait. -/
theorem init_resets_history (histories : List (String × List HistoryEntry))
    (limits : List (String × Nat)) (key : String) (now : Int)
    (hlim : 1 ≤ lookupLimit limits key) :
    (initHistories histories key).lookup key = some [] ∧
    waitDecision (lookupLimit limits key) now
      (clean_history now
        (((initHistories histories key).lookup key).getD [])) = none := by
  refine ⟨lookup_initHistories histories key, ?_⟩
  rw [lookup_initHistories histories key]
  show waitDecision (lookupLimit limits key) now (clean_history now []) = none
  rw [clean_history, waitDecision, if_neg (by simp; omega)]

/-- Witness for C10. -/
theorem init_resets_history_witness :
    1 ≤ lookupLimit [] "k" ∧
    ((initHistories [("k", [⟨5, "u"⟩])] "k").lookup "k" = some [] ∧
      waitDecision (lookupLimit [] "k") 6
        (clean_history 6
          (((initHistories [("k", [⟨5, "u"⟩])] "k").lookup "k").getD [])) = none) :=
  ⟨by decide, init_resets_history [("k", [⟨5, "u"⟩])] [] "k" 6 (by decide)⟩

/-- The completeness test of `__intraday_get_full_data`, as a
proposition: a 16:00 bar exists for the date, or the date is not the
latest in the batch. -/
theorem intradayComplete_iff (batch : List IntradayBar) (d : Nat) :
    intradayComplete batch d = true ↔
      ((∃ b ∈ batch, b.date = d ∧ b.time = 960) ∨ d < latestDate batch) := by
  unfold intradayComplete groupOf
  rw [Bool.or_eq_true, Bool.not_eq_true', List.isEmpty_eq_false_iff_exists_mem]
  constructor
  · rintro (⟨b, hb⟩ | hlt)
    · rw [List.mem_filter, List.mem_filter] at hb
      exact Or.inl ⟨b, hb.1.1, by simpa using hb.1.2, by simpa using hb.2⟩
    · exact Or.inr (by simpa using hlt)
  · rintro (⟨b, hb, hbd, hbt⟩ | hlt)
    · refine Or.inl ⟨b, ?_⟩
      rw [List.mem_filter, List.mem_filter]
      exact ⟨⟨hb, by simpa using hbd⟩, by simpa using hbt⟩
    · exact Or.inr (by simpa using hlt)

/-- C5.  A date's group in a freshly fetched multi-day intraday batch is
persisted as a completed per-day cache file iff the group contains a bar
at exactly 16:00:00 (minute 960) or the date is strictly earlier than the
most recent date in the batch; in particular the most recent date lacking
a 16:00:00 bar is not persisted, while an earlier date lacking one is. -/
theorem intraday_completeness_boundary (batch : List IntradayBar) (d : Nat)
    (hd : d ∈ datesOf batch) :
    (d ∈ completedDates batch ↔
      ((∃ b ∈ batch, b.date = d ∧ b.time = 960) ∨ d < latestDate batch)) ∧
    (d = latestDate batch → (∀ b ∈ batch, b.date = d → b.time ≠ 960) →
      d ∉ completedDates batch) ∧
    (d < latestDate batch → d ∈ completedDates batch) := by
  have hiff : d ∈ completedDates batch ↔
      ((∃ b ∈ batch, b.date = d ∧ b.time = 960) ∨ d < latestDate batch) := by
    unfold completedDates
    rw [List.mem_filter]
    rw [intradayComplete_iff batch d]
    simp [hd]
  refine ⟨hiff, ?_, ?_⟩
  · intro heq hno hmem
    rcases hiff.mp hmem with ⟨b, hb, hbd, hbt⟩ | hlt
    · exact hno b hb hbd hbt
    · omega
  · intro hlt
    exact hiff.mpr (Or.inr hlt)

/-- Witness for C5: in the batch with dates 3 (has a 16:00 bar), 4 (no
16:00 bar, not latest) and 5 (latest, no 16:00 bar), dates 3 and 4 are
persisted and date 5 is not. -/
theorem intraday_completeness_boundary_witness :
    (4 ∈ datesOf [⟨3, 960⟩, ⟨4, 600⟩, ⟨5, 700⟩]) ∧
    (4 ∈ completedDates [⟨3, 960⟩, ⟨4, 600⟩, ⟨5, 700⟩]) ∧
    (5 ∉ completedDates [⟨3, 960⟩, ⟨4, 600⟩, ⟨5, 700⟩]) :=
  ⟨by decide,
    (intraday_completeness_boundary [⟨3, 960⟩, ⟨4, 600⟩, ⟨5, 700⟩] 4
      (by decide)).2.2 (by decide),
    (intraday_completeness_boundary [⟨3, 960⟩, ⟨4, 600⟩, ⟨5, 700⟩] 5
      (by decide)).2.1 (by decide) (by decide)⟩

/-- Counterexample to C6 as stated: `__merge_daily_cache` wraps
`pd.read_csv` in `try/except` and `continue`s past a cache file whose CSV
fails to parse — here a corrupt file sits alongside a good one, and the
merge succeeds with the corrupt file's data silently dropped instead of
the read failure propagating; a cache of only corrupt files merges to an
empty frame. -/
theorem merge_swallows_parse_error :
    merge_daily_cache
      [⟨1, none⟩, ⟨2, some [⟨10, 1, 2, 3, 4, 5, 6, 7, 8⟩]⟩] =
      [⟨10, 1, 2, 3, 4, 5, 6, 7, 8⟩] ∧
    merge_daily_cache [⟨1, none⟩] = [] := by
  constructor <;> rfl

/-- C6 amended.  A parse failure on every direct cache read — the daily
cache-hit read of `__get_daily_data`, the per-day cache read of
`get_intraday_series`, and the temporary-batch read of
`__intraday_get_full_data` — propagates to the caller and triggers no
network re-fetch; but inside `__merge_daily_cache` a cache file whose
CSV fails to parse is logged and skipped (its read failure is suppressed
and its rows are dropped from the merge). -/
theorem cache_read_error_paths :
    (get_daily_data_hit none =
      (.error "cache file failed to parse", false)) ∧
    (∀ fullBatch : List IntradayBar,
      get_intraday_series_cached (some none) fullBatch =
        (.error "cache file failed to parse", false)) ∧
    (∀ response : List IntradayBar,
      intraday_get_full_data_cached (some none) response =
        (.error "cache file failed to parse", false)) ∧
    (∀ (d : Nat) (rest : List CacheFile),
      merge_daily_cache (⟨d, none⟩ :: rest) = merge_daily_cache rest) := by
  refine ⟨rfl, fun _ => rfl, fun _ => rfl, fun d rest => ?_⟩
  unfold merge_daily_cache
  rfl

/-- Counterexample to C1 as stated: two snapshot files share timestamp 10
with different values; the newer file (date 2) is enumerated second, as
`__get_daily_data` merges the files in the order the cache folder returns
them without sorting, and the merged row for timestamp 10 carries the
older file's values, not the newest file's. -/
theorem merge_not_newest_first :
    merge_daily_cache
      [⟨1, some [⟨10, 1, 1, 1, 1, 1, 1, 1, 1⟩]⟩,
       ⟨2, some [⟨10, 5, 5, 5, 5, 5, 5, 5, 5⟩]⟩] =
      [⟨10, 1, 1, 1, 1, 1, 1, 1, 1⟩] ∧
    (⟨10, 1, 1, 1, 1, 1, 1, 1, 1⟩ : DailyRow) ≠ ⟨10, 5, 5, 5, 5, 5, 5, 5, 5⟩ ∧
    (1 : Nat) < 2 := by
  refine ⟨rfl, by decide, by decide⟩

/-- Unfolding `intradayAux` when the requested date is specified: the
loop runs exactly once, whatever the fuel and frame. -/
theorem intradayAux_some (d today : Nat) (dataAt : Nat → List IntradayBar)
    (fuel delta : Nat) :
    intradayAux (some d) today dataAt fuel delta = (dataAt d, delta + 1) := by
  cases fuel with
  | zero => rfl
  | succ n =>
    rw [intradayAux]
    simp

/-- Unfolding `intradayAux` with no fuel left (`day_delta` has reached
99): the loop fetches once more and exits. -/
theorem intradayAux_zero (today : Nat) (dataAt : Nat → List IntradayBar)
    (delta : Nat) :
    intradayAux none today dataAt 0 delta = (dataAt (today - delta), delta + 1) := by
  rfl

/-- Unfolding `intradayAux` when the current date has data: the loop
exits with it. -/
theorem intradayAux_nonempty (today : Nat) (dataAt : Nat → List IntradayBar)
    (fuel delta : Nat) (hne : dataAt (today - delta) ≠ []) :
    intradayAux none today dataAt fuel delta = (dataAt (today - delta), delta + 1) := by
  cases fuel with
  | zero => rfl
  | succ n =>
    rw [intradayAux]
    rw [if_neg]
    · rfl
    · intro hc
      simp only [Option.getD_none, Option.isNone_none, Bool.true_and,
        Bool.and_eq_true, List.isEmpty_iff, decide_eq_true_eq] at hc
      exact hne hc.1

/-- Unfolding `intradayAux` when `day_delta + 1` has reached 100: the
loop exits whatever the frame. -/
theorem intradayAux_out_of_days (today : Nat) (dataAt : Nat → List IntradayBar)
    (fuel delta : Nat) (hd : ¬ delta + 1 < 100) :
    intradayAux none today dataAt fuel delta = (dataAt (today - delta), delta + 1) := by
  cases fuel with
  | zero => rfl
  | succ n =>
    rw [intradayAux]
    rw [if_neg]
    · rfl
    · intro hc
      simp only [Option.getD_none, Option.isNone_none, Bool.true_and,
        Bool.and_eq_true, List.isEmpty_iff, decide_eq_true_eq] at hc
      exact hd hc.2

/-- Unfolding `intradayAux` when the current date is empty and the search
may continue: recurse on the next older date. -/
theorem intradayAux_step_empty (today : Nat) (dataAt : Nat → List IntradayBar)
    (n delta : Nat) (h1 : delta + 1 < 100) (hempty : dataAt (today - delta) = []) :
    intradayAux none today dataAt (n + 1) delta =
      intradayAux none today dataAt n (delta + 1) := by
  rw [intradayAux]
  rw [if_pos]
  simp only [Option.getD_none, Option.isNone_none, Bool.true_and,
    Bool.and_eq_true, List.isEmpty_iff, decide_eq_true_eq]
  exact ⟨hempty, h1⟩

/-- The backward search visits dates `today - delta, today - (delta+1), …`
and stops at the first offset with data, or after offset 99. -/
theorem intradayAux_spec (today : Nat) (dataAt : Nat → List IntradayBar) :
    ∀ fuel delta : Nat, fuel + delta = 99 →
      ((∀ j, delta ≤ j → j ≤ 99 → dataAt (today - j) = []) →
        intradayAux none today dataAt fuel delta = ([], 100)) ∧
      (∀ j0, delta ≤ j0 → j0 ≤ 99 → dataAt (today - j0) ≠ [] →
        (∀ j, delta ≤ j → j < j0 → dataAt (today - j) = []) →
        intradayAux none today dataAt fuel delta = (dataAt (today - j0), j0 + 1)) := by
  intro fuel
  induction fuel with
  | zero =>
    intro delta hd
    have hdelta : delta = 99 := by omega
    subst hdelta
    constructor
    · intro hall
      rw [intradayAux_zero, hall 99 le_rfl le_rfl]
    · intro j0 hj0 hj0' hne _
      have hj : j0 = 99 := by omega
      subst hj
      rw [intradayAux_zero]
  | succ n ih =>
    intro delta hd
    have h1 : delta + 1 < 100 := by omega
    constructor
    · intro hall
      have hempty : dataAt (today - delta) = [] := hall delta le_rfl (by omega)
      rw [intradayAux_step_empty today dataAt n delta h1 hempty]
      exact (ih (delta + 1) (by omega)).1 (fun j hj hj' => hall j (by omega) hj')
    · intro j0 hj0 hj0' hne hbefore
      rcases Nat.eq_or_lt_of_le hj0 with heq | hlt
      · subst heq
        exact intradayAux_nonempty today dataAt (n + 1) delta hne
      · have hempty : dataAt (today - delta) = [] := hbefore delta le_rfl hlt
        rw [intradayAux_step_empty today dataAt n delta h1 hempty]
        exact (ih (delta + 1) (by omega)).2 j0 hlt hj0' hne
          (fun j hj hj' => hbefore j (by omega) hj')

/-- The final `day_delta` never exceeds `fuel + delta + 1`. -/
theorem intradayAux_snd_le (today : Nat) (dataAt : Nat → List IntradayBar) :
    ∀ fuel delta : Nat,
      (intradayAux none today dataAt fuel delta).snd ≤ fuel + delta + 1 := by
  intro fuel
  induction fuel with
  | zero =>
    intro delta
    rw [intradayAux_zero]
    omega
  | succ n ih =>
    intro delta
    by_cases h1 : delta + 1 < 100
    · by_cases hempty : dataAt (today - delta) = []
      · rw [intradayAux_step_empty today dataAt n delta h1 hempty]
        have := ih (delta + 1)
        omega
      · rw [intradayAux_nonempty today dataAt (n + 1) delta hempty]
        omega
    · rw [intradayAux_out_of_days today dataAt (n + 1) delta h1]
      omega

/-- C8.  `get_intraday_series` with a specified date makes exactly one
date attempt and returns that date's frame (empty if no data exists,
never searching other dates); with the date unspecified it searches
backward from today one day at a time, returning the first date with
data, returns an empty result only when all 100 attempted days (offsets
0–99) are empty, and in every case makes at most 100 date attempts. -/
theorem intraday_search (today : Nat) (dataAt : Nat → List IntradayBar) :
    (∀ d, get_intraday_search (some d) today dataAt = (dataAt d, 1)) ∧
    ((∀ j, j ≤ 99 → dataAt (today - j) = []) →
      get_intraday_search none today dataAt = ([], 100)) ∧
    (∀ j0, j0 ≤ 99 → dataAt (today - j0) ≠ [] →
      (∀ j, j < j0 → dataAt (today - j) = []) →
      get_intraday_search none today dataAt = (dataAt (today - j0), j0 + 1)) ∧
    (get_intraday_search none today dataAt).snd ≤ 100 := by
  refine ⟨?_, ?_, ?_, ?_⟩
  · intro d
    exact intradayAux_some d today dataAt 99 0
  · intro hall
    exact (intradayAux_spec today dataAt 99 0 rfl).1 (fun j _ hj' => hall j hj')
  · intro j0 hj0 hne hbefore
    exact (intradayAux_spec today dataAt 99 0 rfl).2 j0 (Nat.zero_le _) hj0 hne
      (fun j _ hj' => hbefore j hj')
  · exact intradayAux_snd_le today dataAt 99 0

/-- Witness for C8: with no data anywhere, a specified date returns an
empty frame after one attempt, and the unspecified search gives up after
100 attempts; with data only at offset 3, the search stops there. -/
theorem intraday_search_witness :
    get_intraday_search (some 7) 10 (fun _ => []) = ([], 1) ∧
    get_intraday_search none 10 (fun _ => []) = ([], 100) ∧
    get_intraday_search none 10
      (fun d => if d == 7 then [⟨7, 100⟩] else []) = ([⟨7, 100⟩], 4) :=
  ⟨(intraday_search 10 (fun _ => [])).1 7,
    (intraday_search 10 (fun _ => [])).2.1 (fun _ _ => rfl),
    by
      have h := (intraday_search 10
        (fun d => if d == 7 then [⟨7, 100⟩] else [])).2.2.1 3 (by decide)
        (by decide) (fun j hj => by interval_cases j <;> rfl)
      simpa using h⟩

/-! ### Dictionary lemmas for `__merge_daily_cache` -/

/-- Membership in `insertDesc`. -/
theorem mem_insertDesc (a row : DailyRow) :
    ∀ l : List DailyRow, a ∈ insertDesc row l ↔ a = row ∨ a ∈ l := by
  intro l
  induction l with
  | nil => simp [insertDesc]
  | cons r rs ih =>
    rw [insertDesc]
    by_cases h : r.timestamp ≤ row.timestamp
    · rw [if_pos h]
      simp
    · rw [if_neg h]
      simp only [List.mem_cons, ih]
      tauto

/-- Membership is preserved by the final descending sort of the merge. -/
theorem mem_sortRowsDesc (a : DailyRow) :
    ∀ l : List DailyRow, a ∈ sortRowsDesc l ↔ a ∈ l := by
  intro l
  induction l with
  | nil => simp [sortRowsDesc]
  | cons r rs ih =>
    show a ∈ insertDesc r (sortRowsDesc rs) ↔ _
    rw [mem_insertDesc, ih]
    simp

/-- `find?` by timestamp through one dictionary insertion: an existing
binding is untouched. -/
theorem find?_insertRow_some (t : Nat) (acc : List DailyRow) (row x : DailyRow)
    (h : acc.find? (fun r => r.timestamp == t) = some x) :
    (insertRow acc row).find? (fun r => r.timestamp == t) = some x := by
  unfold insertRow
  by_cases hc : acc.any (fun r => r.timestamp == row.timestamp)
  · rw [if_pos hc]; exact h
  · rw [if_neg hc, List.find?_append, h]
    rfl

/-- `find?` by timestamp through one dictionary insertion: a new row with
the sought timestamp becomes the binding. -/
theorem find?_insertRow_new (t : Nat) (acc : List DailyRow) (row : DailyRow)
    (h : acc.find? (fun r => r.timestamp == t) = none) (ht : row.timestamp = t) :
    (insertRow acc row).find? (fun r => r.timestamp == t) = some row := by
  unfold insertRow
  have hc : acc.any (fun r => r.timestamp == row.timestamp) = false := by
    rw [List.any_eq_false]
    intro r hr
    have := List.find?_eq_none.mp h r hr
    simpa [ht] using this
  rw [Bool.eq_false_iff] at hc
  rw [if_neg hc, List.find?_append, h]
  simp [List.find?, ht]

/-- `find?` by timestamp through one dictionary insertion: a row with a
different timestamp changes nothing. -/
theorem find?_insertRow_other (t : Nat) (acc : List DailyRow) (row : DailyRow)
    (h : acc.find? (fun r => r.timestamp == t) = none) (ht : row.timestamp ≠ t) :
    (insertRow acc row).find? (fun r => r.timestamp == t) = none := by
  unfold insertRow
  have hbe : (row.timestamp == t) = false := by simpa using ht
  by_cases hc : acc.any (fun r => r.timestamp == row.timestamp)
  · rw [if_pos hc]; exact h
  · rw [if_neg hc, List.find?_append, h]
    simp [List.find?, hbe]

/-- Folding a file's rows into the dictionary keeps existing bindings. -/
theorem find?_foldl_insertRow_some (t : Nat) (x : DailyRow) :
    ∀ (rows : List DailyRow) (acc : List DailyRow),
      acc.find? (fun r => r.timestamp == t) = some x →
      (rows.foldl insertRow acc).find? (fun r => r.timestamp == t) = some x := by
  intro rows
  induction rows with
  | nil => intro acc h; exact h
  | cons row rest ih =>
    intro acc h
    exact ih (insertRow acc row) (find?_insertRow_some t acc row x h)

/-- Folding a file's rows into a dictionary without a binding for `t`
gives the file's own first row at `t` (or still nothing). -/
theorem find?_foldl_insertRow_none (t : Nat) :
    ∀ (rows : List DailyRow) (acc : List DailyRow),
      acc.find? (fun r => r.timestamp == t) = none →
      (rows.foldl insertRow acc).find? (fun r => r.timestamp == t) =
        rows.find? (fun r => r.timestamp == t) := by
  intro rows
  induction rows with
  | nil => intro acc h; exact h
  | cons row rest ih =>
    intro acc h
    by_cases ht : row.timestamp = t
    · have h1 := find?_insertRow_new t acc row h ht
      rw [List.foldl_cons,
        find?_foldl_insertRow_some t row rest (insertRow acc row) h1]
      simp [List.find?, ht]
    · have h1 := find?_insertRow_other t acc row h ht
      rw [List.foldl_cons, ih (insertRow acc row) h1]
      have hbe : (row.timestamp == t) = false := by simpa using ht
      simp [List.find?, hbe]

/-- Reading further files keeps existing dictionary bindings. -/
theorem find?_foldl_readFileRows_some (t : Nat) (x : DailyRow) :
    ∀ (files : List CacheFile) (acc : List DailyRow),
      acc.find? (fun r => r.timestamp == t) = some x →
      (files.foldl readFileRows acc).find? (fun r => r.timestamp == t) = some x := by
  intro files
  induction files with
  | nil => intro acc h; exact h
  | cons f fs ih =>
    intro acc h
    apply ih
    unfold readFileRows
    match f with
    | ⟨_, none⟩ => exact h
    | ⟨_, some rows⟩ => exact find?_foldl_insertRow_some t x rows acc h

/-- The dictionary built by `__merge_daily_cache` binds `t` to exactly the
first row carrying timestamp `t` in scanning order. -/
theorem find?_foldl_readFileRows (t : Nat) :
    ∀ (files : List CacheFile) (acc : List DailyRow),
      acc.find? (fun r => r.timestamp == t) = none →
      (files.foldl readFileRows acc).find? (fun r => r.timestamp == t) =
        firstRowFor files t := by
  intro files
  induction files with
  | nil => intro acc h; exact h
  | cons f fs ih =>
    intro acc h
    match f with
    | ⟨d, none⟩ =>
      rw [List.foldl_cons]
      show (fs.foldl readFileRows acc).find? _ = _
      rw [ih acc h]
      rfl
    | ⟨d, some rows⟩ =>
      rw [List.foldl_cons]
      show (fs.foldl readFileRows (rows.foldl insertRow acc)).find? _ = _
      have h1 := find?_foldl_insertRow_none t rows acc h
      rcases hf : rows.find? (fun r => r.timestamp == t) with _ | x
      · rw [hf] at h1
        rw [ih _ h1]
        have hfr : firstRowFor (⟨d, some rows⟩ :: fs) t = firstRowFor fs t := by
          show (match rows.find? (fun r => r.timestamp == t) with
            | some r => some r
            | none => firstRowFor fs t) = firstRowFor fs t
          rw [hf]
        rw [hfr]
      · rw [hf] at h1
        rw [find?_foldl_readFileRows_some t x fs _ h1]
        have hfr : firstRowFor (⟨d, some rows⟩ :: fs) t = some x := by
          show (match rows.find? (fun r => r.timestamp == t) with
            | some r => some r
            | none => firstRowFor fs t) = some x
          rw [hf]
        rw [hfr]

/-- One dictionary insertion preserves distinctness of timestamps. -/
theorem nodup_insertRow (acc : List DailyRow) (row : DailyRow)
    (h : (acc.map (fun r => r.timestamp)).Nodup) :
    ((insertRow acc row).map (fun r => r.timestamp)).Nodup := by
  unfold insertRow
  by_cases hc : acc.any (fun r => r.timestamp == row.timestamp)
  · rw [if_pos hc]; exact h
  · rw [if_neg hc]
    rw [List.map_append, List.nodup_append]
    refine ⟨h, by simp, ?_⟩
    intro a ha hb
    simp only [List.map_cons, List.map_nil, List.mem_singleton] at hb
    subst hb
    rcases List.mem_map.mp ha with ⟨r, hr, hrt⟩
    exact hc (List.any_eq_true.mpr ⟨r, hr, by simp [hrt]⟩)

/-- The merge dictionary has pairwise distinct timestamps. -/
theorem nodup_foldl_readFileRows :
    ∀ (files : List CacheFile) (acc : List DailyRow),
      ((acc.map (fun r => r.timestamp)).Nodup) →
      (((files.foldl readFileRows acc).map (fun r => r.timestamp)).Nodup) := by
  intro files
  induction files with
  | nil => intro acc h; exact h
  | cons f fs ih =>
    intro acc h
    apply ih
    unfold readFileRows
    match f with
    | ⟨_, none⟩ => exact h
    | ⟨_, some rows⟩ =>
      clear ih
      induction rows generalizing acc with
      | nil => exact h
      | cons row rest ih2 => exact ih2 (insertRow acc row) (nodup_insertRow acc row h)

/-- `firstRowFor` is some row exactly when some parseable file carries the
timestamp. -/
theorem firstRowFor_isSome (t : Nat) :
    ∀ files : List CacheFile,
      (∃ f ∈ files, ∃ rows, f.rows = some rows ∧
        t ∈ rows.map (fun row => row.timestamp)) →
      ∃ r, firstRowFor files t = some r := by
  intro files
  induction files with
  | nil => rintro ⟨f, hf, _⟩; simp at hf
  | cons f fs ih =>
    rintro ⟨g, hg, rows, hgr, ht⟩
    match f with
    | ⟨d, none⟩ =>
      rcases List.mem_cons.mp hg with rfl | hg'
      · simp at hgr
      · show ∃ r, firstRowFor fs t = some r
        exact ih ⟨g, hg', rows, hgr, ht⟩
    | ⟨d, some rows0⟩ =>
      have hstep : ∀ o, rows0.find? (fun r => r.timestamp == t) = o →
          firstRowFor (⟨d, some rows0⟩ :: fs) t =
            (match o with | some r => some r | none => firstRowFor fs t) := by
        intro o ho
        show (match rows0.find? (fun r => r.timestamp == t) with
          | some r => some r | none => firstRowFor fs t) = _
        rw [ho]
      rcases hf : rows0.find? (fun r => r.timestamp == t) with _ | x
      · rw [hstep none hf]
        rcases List.mem_cons.mp hg with rfl | hg'
        · have hrr : rows0 = rows := by simpa using hgr
          subst hrr
          exfalso
          rcases List.mem_map.mp ht with ⟨row, hrow, hrt⟩
          have := List.find?_eq_none.mp hf row hrow
          simp [hrt] at this
        · exact ih ⟨g, hg', rows, hgr, ht⟩
      · rw [hstep (some x) hf]
        exact ⟨x, rfl⟩

/-- C1 amended.  The daily-cache merge is a union on timestamp in which
the first occurrence per timestamp wins, taking the files in the order
the cache folder enumerated them (the code performs no newest-first sort
before merging): the binding for `t` is `firstRowFor` — the row for `t`
in the first enumerated parseable file containing it — it is the unique
row for `t` in the merged frame, and no timestamp present in any
parseable snapshot is absent from the merged result. -/
theorem merge_union_first_occurrence (files : List CacheFile) (t : Nat) :
    (∀ r, firstRowFor files t = some r →
      r ∈ merge_daily_cache files ∧ r.timestamp = t ∧
      ∀ r' ∈ merge_daily_cache files, r'.timestamp = t → r' = r) ∧
    ((∃ f ∈ files, ∃ rows, f.rows = some rows ∧
        t ∈ rows.map (fun row => row.timestamp)) →
      ∃ r, r ∈ merge_daily_cache files ∧ r.timestamp = t) := by
  have hdict : (files.foldl readFileRows []).find? (fun r => r.timestamp == t) =
      firstRowFor files t :=
    find?_foldl_readFileRows t files [] rfl
  have hmain : ∀ r, firstRowFor files t = some r →
      r ∈ merge_daily_cache files ∧ r.timestamp = t ∧
      ∀ r' ∈ merge_daily_cache files, r'.timestamp = t → r' = r := by
    intro r hr
    rw [hr] at hdict
    have hmem : r ∈ files.foldl readFileRows [] :=
      List.mem_of_find?_eq_some hdict
    have hts : r.timestamp = t := by
      have := List.find?_some hdict
      simpa using this
    refine ⟨(mem_sortRowsDesc r _).mpr hmem, hts, ?_⟩
    intro r' hr' hts'
    have hmem' : r' ∈ files.foldl readFileRows [] :=
      (mem_sortRowsDesc r' _).mp hr'
    have hnd : (((files.foldl readFileRows []).map
        (fun row => row.timestamp)).Nodup) :=
      nodup_foldl_readFileRows files [] (by simp)
    exact List.inj_on_of_nodup_map hnd hmem' hmem (by rw [hts', hts])
  refine ⟨hmain, ?_⟩
  intro hex
  rcases firstRowFor_isSome t files hex with ⟨r, hr⟩
  exact ⟨r, (hmain r hr).1, (hmain r hr).2.1⟩

/-- Witness for C1's amended claim: two files share timestamp 10; the
first enumerated file's row is the merged binding, and timestamp 11 from
the second file also survives. -/
theorem merge_union_first_occurrence_witness :
    firstRowFor
      [⟨1, some [⟨10, 1, 1, 1, 1, 1, 1, 1, 1⟩]⟩,
       ⟨2, some [⟨10, 5, 5, 5, 5, 5, 5, 5, 5⟩, ⟨11, 6, 6, 6, 6, 6, 6, 6, 6⟩]⟩] 10 =
      some ⟨10, 1, 1, 1, 1, 1, 1, 1, 1⟩ ∧
    (⟨10, 1, 1, 1, 1, 1, 1, 1, 1⟩ : DailyRow) ∈ merge_daily_cache
      [⟨1, some [⟨10, 1, 1, 1, 1, 1, 1, 1, 1⟩]⟩,
       ⟨2, some [⟨10, 5, 5, 5, 5, 5, 5, 5, 5⟩, ⟨11, 6, 6, 6, 6, 6, 6, 6, 6⟩]⟩] ∧
    ∃ r, r ∈ merge_daily_cache
      [⟨1, some [⟨10, 1, 1, 1, 1, 1, 1, 1, 1⟩]⟩,
       ⟨2, some [⟨10, 5, 5, 5, 5, 5, 5, 5, 5⟩, ⟨11, 6, 6, 6, 6, 6, 6, 6, 6⟩]⟩] ∧
      r.timestamp = 11 :=
  ⟨by decide,
    ((merge_union_first_occurrence
      [⟨1, some [⟨10, 1, 1, 1, 1, 1, 1, 1, 1⟩]⟩,
       ⟨2, some [⟨10, 5, 5, 5, 5, 5, 5, 5, 5⟩, ⟨11, 6, 6, 6, 6, 6, 6, 6, 6⟩]⟩]
      10).1 ⟨10, 1, 1, 1, 1, 1, 1, 1, 1⟩ (by decide)).1,
    (merge_union_first_occurrence
      [⟨1, some [⟨10, 1, 1, 1, 1, 1, 1, 1, 1⟩]⟩,
       ⟨2, some [⟨10, 5, 5, 5, 5, 5, 5, 5, 5⟩, ⟨11, 6, 6, 6, 6, 6, 6, 6, 6⟩]⟩]
      11).2 ⟨⟨2, some [⟨10, 5, 5, 5, 5, 5, 5, 5, 5⟩, ⟨11, 6, 6, 6, 6, 6, 6, 6, 6⟩]⟩,
        by decide, [⟨10, 5, 5, 5, 5, 5, 5, 5, 5⟩, ⟨11, 6, 6, 6, 6, 6, 6, 6, 6⟩],
        rfl, by decide⟩⟩

/-- Inserting rows whose timestamps are fresh and pairwise distinct
appends them in order. -/
theorem foldl_insertRow_fresh :
    ∀ (s acc : List DailyRow), ((s.map (fun r => r.timestamp)).Nodup) →
      (∀ r ∈ s, ∀ a ∈ acc, a.timestamp ≠ r.timestamp) →
      s.foldl insertRow acc = acc ++ s := by
  intro s
  induction s with
  | nil => intro acc _ _; simp
  | cons row rest ih =>
    intro acc hnd hdisj
    rw [List.foldl_cons]
    have hins : insertRow acc row = acc ++ [row] := by
      unfold insertRow
      rw [if_neg]
      intro hany
      rcases List.any_eq_true.mp hany with ⟨a, ha, hat⟩
      exact hdisj row (by simp) a ha (by simpa using hat)
    rw [hins, ih (acc ++ [row]) (List.Nodup.of_cons (by simpa using hnd))]
    · simp
    · intro r hr a ha
      rcases List.mem_append.mp ha with ha' | ha'
      · exact hdisj r (by simp [hr]) a ha'
      · have ha'' : a = row := by simpa using ha'
        rw [ha'']
        intro heq
        have hmem : row.timestamp ∈ rest.map (fun r => r.timestamp) :=
          List.mem_map.mpr ⟨r, hr, heq.symm⟩
        simp only [List.map_cons, List.nodup_cons] at hnd
        exact hnd.1 hmem

/-- Inserting rows whose timestamps are all already bound is a no-op. -/
theorem foldl_insertRow_dup :
    ∀ (s acc : List DailyRow),
      (∀ r ∈ s, ∃ a ∈ acc, a.timestamp = r.timestamp) →
      s.foldl insertRow acc = acc := by
  intro s
  induction s with
  | nil => intro acc _; rfl
  | cons row rest ih =>
    intro acc hdup
    rw [List.foldl_cons]
    have hins : insertRow acc row = acc := by
      unfold insertRow
      rw [if_pos]
      rcases hdup row (by simp) with ⟨a, ha, hat⟩
      exact List.any_eq_true.mpr ⟨a, ha, by simpa using hat⟩
    rw [hins]
    exact ih acc (fun r hr => hdup r (by simp [hr]))

/-- Sorting an already descending-sorted row list is the identity. -/
theorem sortRowsDesc_sorted_id :
    ∀ s : List DailyRow, s.Pairwise (fun a b => b.timestamp ≤ a.timestamp) →
      sortRowsDesc s = s := by
  intro s
  induction s with
  | nil => intro _; rfl
  | cons a l ih =>
    intro hp
    show insertDesc a (sortRowsDesc l) = a :: l
    rw [ih (List.Pairwise.of_cons hp)]
    cases l with
    | nil => rfl
    | cons r rs =>
      rw [insertDesc, if_pos ((List.pairwise_cons.mp hp).1 r (by simp))]

/-- C9.  The daily-cache merge is idempotent: merging a snapshot (whose
bars have pairwise distinct timestamps and are ordered descending, as
snapshots are) alone, or with an identical copy of itself, reproduces
exactly the same bar list — one row per timestamp, no duplicates, order
preserved descending. -/
theorem merge_idempotent (s : List DailyRow) (d d' : Nat)
    (hnd : ((s.map (fun r => r.timestamp)).Nodup))
    (hsorted : s.Pairwise (fun a b => b.timestamp < a.timestamp)) :
    merge_daily_cache [⟨d, some s⟩] = s ∧
    merge_daily_cache [⟨d, some s⟩, ⟨d', some s⟩] = s := by
  have hfresh : s.foldl insertRow [] = s := by
    have h := foldl_insertRow_fresh s [] hnd (by intro r _ a ha; simp at ha)
    simpa using h
  have hdup : s.foldl insertRow s = s :=
    foldl_insertRow_dup s s (fun r hr => ⟨r, hr, rfl⟩)
  have hle : s.Pairwise (fun a b => b.timestamp ≤ a.timestamp) :=
    hsorted.imp (fun h => le_of_lt h)
  constructor
  · show sortRowsDesc (s.foldl insertRow []) = s
    rw [hfresh]
    exact sortRowsDesc_sorted_id s hle
  · show sortRowsDesc (s.foldl insertRow (s.foldl insertRow [])) = s
    rw [hfresh, hdup]
    exact sortRowsDesc_sorted_id s hle

/-- Witness for C9 at a concrete two-bar snapshot. -/
theorem merge_idempotent_witness :
    (([⟨10, 1, 2, 3, 4, 5, 6, 7, 8⟩, ⟨9, 2, 3, 4, 5, 6, 7, 8, 9⟩] :
        List DailyRow).map (fun r => r.timestamp)).Nodup ∧
    ([⟨10, 1, 2, 3, 4, 5, 6, 7, 8⟩, ⟨9, 2, 3, 4, 5, 6, 7, 8, 9⟩] :
        List DailyRow).Pairwise (fun a b => b.timestamp < a.timestamp) ∧
    merge_daily_cache
      [⟨3, some [⟨10, 1, 2, 3, 4, 5, 6, 7, 8⟩, ⟨9, 2, 3, 4, 5, 6, 7, 8, 9⟩]⟩,
       ⟨3, some [⟨10, 1, 2, 3, 4, 5, 6, 7, 8⟩, ⟨9, 2, 3, 4, 5, 6, 7, 8, 9⟩]⟩] =
      [⟨10, 1, 2, 3, 4, 5, 6, 7, 8⟩, ⟨9, 2, 3, 4, 5, 6, 7, 8, 9⟩] :=
  ⟨by decide, by decide,
    (merge_idempotent
      [⟨10, 1, 2, 3, 4, 5, 6, 7, 8⟩, ⟨9, 2, 3, 4, 5, 6, 7, 8, 9⟩] 3 3
      (by decide) (by decide)).2⟩

/-! ### Compaction (C3) -/

/-- Members of `insertRow` come from the dictionary or are the row. -/
theorem mem_insertRow (acc : List DailyRow) (row a : DailyRow)
    (h : a ∈ insertRow acc row) : a ∈ acc ∨ a = row := by
  unfold insertRow at h
  by_cases hc : acc.any (fun r => r.timestamp == row.timestamp)
  · rw [if_pos hc] at h; exact Or.inl h
  · rw [if_neg hc] at h
    simpa using List.mem_append.mp h

/-- Members of the fold come from the dictionary or the inserted rows. -/
theorem mem_foldl_insertRow :
    ∀ (rows acc : List DailyRow) (a : DailyRow),
      a ∈ rows.foldl insertRow acc → a ∈ acc ∨ a ∈ rows := by
  intro rows
  induction rows with
  | nil => intro acc a h; exact Or.inl h
  | cons row rest ih =>
    intro acc a h
    rw [List.foldl_cons] at h
    rcases ih (insertRow acc row) a h with h' | h'
    · rcases mem_insertRow acc row a h' with h'' | h''
      · exact Or.inl h''
      · exact Or.inr (by simp [h''])
    · exact Or.inr (by simp [h'])

/-- Members of the merge dictionary come from some parseable file. -/
theorem mem_foldl_readFileRows :
    ∀ (files : List CacheFile) (acc : List DailyRow) (a : DailyRow),
      a ∈ files.foldl readFileRows acc →
      a ∈ acc ∨ ∃ f ∈ files, ∃ rows, f.rows = some rows ∧ a ∈ rows := by
  intro files
  induction files with
  | nil => intro acc a h; exact Or.inl h
  | cons f fs ih =>
    intro acc a h
    rw [List.foldl_cons] at h
    rcases ih (readFileRows acc f) a h with h' | h'
    · match f with
      | ⟨d, none⟩ => exact Or.inl h'
      | ⟨d, some rows⟩ =>
        rcases mem_foldl_insertRow rows acc a h' with h'' | h''
        · exact Or.inl h''
        · exact Or.inr ⟨⟨d, some rows⟩, by simp, rows, rfl, h''⟩
    · rcases h' with ⟨g, hg, rows, hgr, har⟩
      exact Or.inr ⟨g, by simp [hg], rows, hgr, har⟩

/-- A timestamp is in the merged frame iff some parseable file carries
it. -/
theorem merge_ts_iff (files : List CacheFile) (t : Nat) :
    (∃ r ∈ merge_daily_cache files, r.timestamp = t) ↔
      ∃ f ∈ files, ∃ rows, f.rows = some rows ∧
        t ∈ rows.map (fun row => row.timestamp) := by
  constructor
  · rintro ⟨r, hr, rfl⟩
    have hm := (mem_sortRowsDesc r _).mp hr
    rcases mem_foldl_readFileRows files [] r hm with h | h
    · simp at h
    · rcases h with ⟨f, hf, rows, hfr, hrr⟩
      exact ⟨f, hf, rows, hfr, List.mem_map.mpr ⟨r, hrr, rfl⟩⟩
  · intro hex
    rcases firstRowFor_isSome t files hex with ⟨r, hr⟩
    have hdict := find?_foldl_readFileRows t files [] rfl
    rw [hr] at hdict
    exact ⟨r, (mem_sortRowsDesc r _).mpr (List.mem_of_find?_eq_some hdict),
      by simpa using List.find?_some hdict⟩

/-- A merge over files including a non-empty parseable file is
non-empty. -/
theorem merge_nonempty (files : List CacheFile) (d : Nat) (rows : List DailyRow)
    (hmem : (⟨d, some rows⟩ : CacheFile) ∈ files) (hne : rows ≠ []) :
    merge_daily_cache files ≠ [] := by
  rcases rows with _ | ⟨r, rest⟩
  · exact absurd rfl hne
  · have hex := (merge_ts_iff files r.timestamp).mpr
      ⟨⟨d, some (r :: rest)⟩, hmem, r :: rest, rfl, by simp⟩
    rcases hex with ⟨x, hx, _⟩
    intro hnil
    rw [hnil] at hx
    simp at hx

/-- The first fetch of a symbol on an empty cache folder: the response
is saved, merged (with itself only) and kept as today's single
snapshot. -/
theorem fetch_day_first (today : Nat) (resp : List DailyRow) (hne : resp ≠ []) :
    ∃ merged, get_daily_data_miss [] today resp =
        ([⟨today, some merged⟩], merged) ∧
      ∀ t, (∃ r ∈ merged, r.timestamp = t) ↔
        t ∈ resp.map (fun r => r.timestamp) := by
  have hr_ne : resp.isEmpty = false := by
    rw [List.isEmpty_eq_false_iff_exists_mem]
    rcases resp with _ | ⟨r, rest⟩
    · exact absurd rfl hne
    · exact ⟨r, by simp⟩
  have hm_ne : merge_daily_cache [⟨today, some resp⟩] ≠ [] :=
    merge_nonempty _ today resp (by simp) hne
  have hm_ne' : (merge_daily_cache [⟨today, some resp⟩]).isEmpty = false := by
    rw [List.isEmpty_eq_false_iff_exists_mem]
    rcases hx : merge_daily_cache [⟨today, some resp⟩] with _ | ⟨r, rest⟩
    · exact absurd hx hm_ne
    · exact ⟨r, by simp⟩
  refine ⟨merge_daily_cache [⟨today, some resp⟩], ?_, ?_⟩
  · unfold get_daily_data_miss save_data_frame
    simp [hr_ne, hm_ne', sortFilesDesc, insertFileDesc]
  · intro t
    rw [merge_ts_iff]
    constructor
    · rintro ⟨f, hf, rows, hfr, ht⟩
      have : f = ⟨today, some resp⟩ := by simpa using hf
      subst this
      have : rows = resp := by simpa using hfr.symm
      subst this
      exact ht
    · intro ht
      exact ⟨⟨today, some resp⟩, by simp, resp, rfl, ht⟩

/-- A later fetch of the symbol with exactly one older snapshot in the
folder: the response is saved, merged with the older snapshot, the merge
is re-saved as today's snapshot and the older file is deleted. -/
theorem fetch_day_step (d0 today : Nat) (rows0 resp : List DailyRow)
    (hlt : d0 < today) (hne : resp ≠ []) :
    ∃ merged,
      get_daily_data_miss [⟨d0, some rows0⟩] today resp =
        ([⟨today, some merged⟩], merged) ∧
      ∀ t, (∃ r ∈ merged, r.timestamp = t) ↔
        (t ∈ rows0.map (fun r => r.timestamp) ∨
          t ∈ resp.map (fun r => r.timestamp)) := by
  have hd0 : (d0 == today) = false := by
    simp only [beq_eq_false_iff_ne]
    omega
  have hr_ne : resp.isEmpty = false := by
    rw [List.isEmpty_eq_false_iff_exists_mem]
    rcases resp with _ | ⟨r, rest⟩
    · exact absurd rfl hne
    · exact ⟨r, by simp⟩
  have hm_ne : merge_daily_cache [⟨d0, some rows0⟩, ⟨today, some resp⟩] ≠ [] :=
    merge_nonempty _ today resp (by simp) hne
  have hm_ne' : (merge_daily_cache
      [⟨d0, some rows0⟩, ⟨today, some resp⟩]).isEmpty = false := by
    rw [List.isEmpty_eq_false_iff_exists_mem]
    rcases hx : merge_daily_cache [⟨d0, some rows0⟩, ⟨today, some resp⟩]
      with _ | ⟨r, rest⟩
    · exact absurd hx hm_ne
    · exact ⟨r, by simp⟩
  have hsort : ¬ today ≤ d0 := by omega
  have hne2 : ¬ d0 = today := by omega
  refine ⟨merge_daily_cache [⟨d0, some rows0⟩, ⟨today, some resp⟩], ?_, ?_⟩
  · unfold get_daily_data_miss save_data_frame
    simp [hr_ne, hd0, hm_ne', sortFilesDesc, insertFileDesc, hsort, hne2]
  · intro t
    rw [merge_ts_iff]
    constructor
    · rintro ⟨f, hf, rows, hfr, ht⟩
      rcases List.mem_cons.mp hf with rfl | hf'
      · have : rows = rows0 := by simpa using hfr.symm
        subst this
        exact Or.inl ht
      · have : f = ⟨today, some resp⟩ := by simpa using hf'
        subst this
        have : rows = resp := by simpa using hfr.symm
        subst this
        exact Or.inr ht
    · rintro (ht | ht)
      · exact ⟨⟨d0, some rows0⟩, by simp, rows0, rfl, ht⟩
      · exact ⟨⟨today, some resp⟩, by simp, resp, rfl, ht⟩

/-- Folding further fetch days over a single-snapshot cache keeps exactly
one snapshot, dated at the last day, holding the union of all timestamps
seen. -/
theorem runFetches_fold :
    ∀ (days : List (Nat × List DailyRow)) (d0 : Nat) (rows0 : List DailyRow),
      (∀ p ∈ days, d0 < p.fst) →
      ((days.map Prod.fst).Pairwise (fun a b => a < b)) →
      (∀ p ∈ days, p.snd ≠ []) →
      ∃ rows, days.foldl (fun c p => (get_daily_data_miss c p.fst p.snd).fst)
          [⟨d0, some rows0⟩] = [⟨(days.map Prod.fst).getLastD d0, some rows⟩] ∧
        ∀ t, (∃ r ∈ rows, r.timestamp = t) ↔
          ((∃ r ∈ rows0, r.timestamp = t) ∨
            ∃ p ∈ days, t ∈ p.snd.map (fun r => r.timestamp)) := by
  intro days
  induction days with
  | nil =>
    intro d0 rows0 _ _ _
    exact ⟨rows0, rfl, fun t => by simp⟩
  | cons p rest ih =>
    intro d0 rows0 hgt hsorted hresp
    rcases fetch_day_step d0 p.fst rows0 p.snd (hgt p (by simp)) (hresp p (by simp))
      with ⟨merged, heq, hts⟩
    rw [List.foldl_cons]
    have hp : (p.fst, p.snd) = p := rfl
    rw [show (get_daily_data_miss [⟨d0, some rows0⟩] p.fst p.snd).fst =
        [⟨p.fst, some merged⟩] from by rw [heq]]
    rcases ih p.fst merged
      (fun q hq => (List.pairwise_cons.mp hsorted).1 q.fst
        (List.mem_map.mpr ⟨q, hq, rfl⟩))
      ((List.pairwise_cons.mp hsorted).2)
      (fun q hq => hresp q (by simp [hq])) with ⟨rows, heq', hts'⟩
    refine ⟨rows, ?_, ?_⟩
    · rw [heq', List.map_cons, List.getLastD_cons]
    · intro t
      rw [hts' t]
      constructor
      · rintro (h | h)
        · rcases (hts t).mp (by exact h) with h' | h'
          · rcases List.mem_map.mp h' with ⟨r, hr, hrt⟩
            exact Or.inl ⟨r, hr, hrt⟩
          · exact Or.inr ⟨p, by simp, h'⟩
        · rcases h with ⟨q, hq, hqt⟩
          exact Or.inr ⟨q, by simp [hq], hqt⟩
      · rintro (h | h)
        · rcases h with ⟨r, hr, hrt⟩
          exact Or.inl ((hts t).mpr (Or.inl (List.mem_map.mpr ⟨r, hr, hrt⟩)))
        · rcases h with ⟨q, hq, hqt⟩
          rcases List.mem_cons.mp hq with rfl | hq'
          · exact Or.inl ((hts t).mpr (Or.inr hqt))
          · exact Or.inr ⟨q, hq', hqt⟩

/-- C3.  Starting from an empty cache folder, after any number `N ≥ 1` of
sequential daily-cache-miss fetch/merge/save rounds on strictly
increasing days with non-empty responses, exactly one daily snapshot
file remains for the symbol — dated at the last fetch day — and it
carries exactly the timestamps that appeared in some response (so every
timestamp cached by an earlier round is still present). -/
theorem compaction (days : List (Nat × List DailyRow)) (hne : days ≠ [])
    (hsorted : (days.map Prod.fst).Pairwise (fun a b => a < b))
    (hresp : ∀ p ∈ days, p.snd ≠ []) :
    ∃ rows, runFetches days = [⟨(days.map Prod.fst).getLastD 0, some rows⟩] ∧
      ∀ t, (∃ r ∈ rows, r.timestamp = t) ↔
        ∃ p ∈ days, t ∈ p.snd.map (fun r => r.timestamp) := by
  rcases days with _ | ⟨p, rest⟩
  · exact absurd rfl hne
  · rcases fetch_day_first p.fst p.snd (hresp p (by simp)) with ⟨merged, heq, hts⟩
    unfold runFetches
    rw [List.foldl_cons]
    rw [show (get_daily_data_miss [] p.fst p.snd).fst = [⟨p.fst, some merged⟩]
      from by rw [heq]]
    rcases runFetches_fold rest p.fst merged
      (fun q hq => (List.pairwise_cons.mp hsorted).1 q.fst
        (List.mem_map.mpr ⟨q, hq, rfl⟩))
      ((List.pairwise_cons.mp hsorted).2)
      (fun q hq => hresp q (by simp [hq])) with ⟨rows, heq', hts'⟩
    refine ⟨rows, ?_, ?_⟩
    · rw [heq', List.map_cons, List.getLastD_cons]
    · intro t
      rw [hts' t]
      constructor
      · rintro (h | h)
        · exact ⟨p, by simp, (hts t).mp h⟩
        · rcases h with ⟨q, hq, hqt⟩
          exact ⟨q, by simp [hq], hqt⟩
      · rintro ⟨q, hq, hqt⟩
        rcases List.mem_cons.mp hq with rfl | hq'
        · exact Or.inl ((hts t).mpr hqt)
        · exact Or.inr ⟨q, hq', hqt⟩

/-- Witness for C3: three fetch rounds on days 5, 6, 7 leave exactly one
snapshot, dated day 7, holding timestamps 10 and 11. -/
theorem compaction_witness :
    ([(5, [(⟨10, 1, 1, 1, 1, 1, 1, 1, 1⟩ : DailyRow)]),
      (6, [⟨10, 2, 2, 2, 2, 2, 2, 2, 2⟩]),
      (7, [⟨11, 3, 3, 3, 3, 3, 3, 3, 3⟩])] :
        List (Nat × List DailyRow)) ≠ [] ∧
    ∃ rows, runFetches
        [(5, [⟨10, 1, 1, 1, 1, 1, 1, 1, 1⟩]),
         (6, [⟨10, 2, 2, 2, 2, 2, 2, 2, 2⟩]),
         (7, [⟨11, 3, 3, 3, 3, 3, 3, 3, 3⟩])] =
        [⟨([(5 : Nat), 6, 7]).getLastD 0, some rows⟩] ∧
      ∀ t, (∃ r ∈ rows, r.timestamp = t) ↔
        ∃ p ∈ ([(5, [(⟨10, 1, 1, 1, 1, 1, 1, 1, 1⟩ : DailyRow)]),
          (6, [⟨10, 2, 2, 2, 2, 2, 2, 2, 2⟩]),
          (7, [⟨11, 3, 3, 3, 3, 3, 3, 3, 3⟩])] :
            List (Nat × List DailyRow)), t ∈ p.snd.map (fun r => r.timestamp) :=
  ⟨by decide,
    compaction
      [(5, [⟨10, 1, 1, 1, 1, 1, 1, 1, 1⟩]),
       (6, [⟨10, 2, 2, 2, 2, 2, 2, 2, 2⟩]),
       (7, [⟨11, 3, 3, 3, 3, 3, 3, 3, 3⟩])]
      (by decide) (by decide) (by decide)⟩

/-! ### Retry policy (C7) -/

/-- A transient attempt fails with a retryable error. -/
theorem transient_outcome (raw : RawAttempt) (h : isTransientAttempt raw = true) :
    ∃ e, attemptOutcome raw = .error e ∧ isRetryable e = true := by
  unfold isTransientAttempt at h
  cases hr : attemptOutcome raw with
  | error e =>
    rw [hr] at h
    exact ⟨e, rfl, h⟩
  | ok r =>
    rw [hr] at h
    simp at h

/-- Shifting the linear backoff schedule by one attempt. -/
theorem range_map_delay_succ (m n : Nat) :
    (List.range (m + 1)).map (fun i => 30 * (n + i)) =
      30 * n :: (List.range m).map (fun i => 30 * (n + 1 + i)) := by
  rw [List.range_succ_eq_map, List.map_cons, List.map_map]
  refine congrArg₂ _ (by simp) ?_
  apply List.map_congr_left
  intro i _
  simp only [Function.comp_apply]
  omega

/-- Unfolding one failing attempt of the retry driver. -/
theorem runAndRetryAux_cons_error (base n : Nat) (raw : RawAttempt)
    (rest : List RawAttempt) (e : ApiError) (he : attemptOutcome raw = .error e) :
    runAndRetryAux base n (raw :: rest) =
      if isRetryable e then
        if rest.isEmpty then ⟨.error e, n, []⟩
        else ⟨(runAndRetryAux base (n + 1) rest).result,
          (runAndRetryAux base (n + 1) rest).attempts,
          base * n :: (runAndRetryAux base (n + 1) rest).delays⟩
      else ⟨.error e, n, []⟩ := by
  rw [runAndRetryAux, he]

/-- After any number of transient attempts, a non-retryable failure is
raised at once: no further attempt is made and the error surfaces
unchanged, with the linear backoff sleeps accumulated so far. -/
theorem runAndRetryAux_stops (err : ApiError) (herr : isRetryable err = false) :
    ∀ (pre : List RawAttempt) (n : Nat) (raw : RawAttempt) (rest : List RawAttempt),
      (∀ x ∈ pre, isTransientAttempt x = true) →
      attemptOutcome raw = .error err →
      runAndRetryAux 30 n (pre ++ raw :: rest) =
        ⟨.error err, n + pre.length,
          (List.range pre.length).map (fun i => 30 * (n + i))⟩ := by
  intro pre
  induction pre with
  | nil =>
    intro n raw rest _ hout
    show runAndRetryAux 30 n (raw :: rest) = _
    rw [runAndRetryAux_cons_error 30 n raw rest err hout]
    rw [if_neg (by simp [herr])]
    simp
  | cons x pre' ih =>
    intro n raw rest hpre hout
    obtain ⟨e, he, her⟩ := transient_outcome x (hpre x (by simp))
    show runAndRetryAux 30 n (x :: (pre' ++ raw :: rest)) = _
    rw [runAndRetryAux_cons_error 30 n x (pre' ++ raw :: rest) e he]
    rw [if_pos her, if_neg (by simp)]
    rw [ih (n + 1) raw rest (fun z hz => hpre z (by simp [hz])) hout]
    rw [List.length_cons, range_map_delay_succ pre'.length n]
    rw [RetryResult.mk.injEq]
    refine ⟨rfl, ?_, rfl⟩
    show n + 1 + pre'.length = n + (pre'.length + 1)
    omega

/-- When every attempt fails transiently, the retry driver makes all the
attempts, sleeps the linear backoff between them, and raises the last
attempt's error. -/
theorem runAndRetryAux_exhausts (e : ApiError) (her : isRetryable e = true) :
    ∀ (pre : List RawAttempt) (n : Nat) (raw : RawAttempt),
      (∀ x ∈ pre, isTransientAttempt x = true) →
      attemptOutcome raw = .error e →
      runAndRetryAux 30 n (pre ++ [raw]) =
        ⟨.error e, n + pre.length,
          (List.range pre.length).map (fun i => 30 * (n + i))⟩ := by
  intro pre
  induction pre with
  | nil =>
    intro n raw _ hout
    show runAndRetryAux 30 n [raw] = _
    rw [runAndRetryAux_cons_error 30 n raw [] e hout]
    rw [if_pos her]
    simp
  | cons x pre' ih =>
    intro n raw hpre hout
    obtain ⟨ex, hex, hexr⟩ := transient_outcome x (hpre x (by simp))
    show runAndRetryAux 30 n (x :: (pre' ++ [raw])) = _
    rw [runAndRetryAux_cons_error 30 n x (pre' ++ [raw]) ex hex]
    rw [if_pos hexr, if_neg (by simp)]
    rw [ih (n + 1) raw (fun z hz => hpre z (by simp [hz])) hout]
    rw [List.length_cons, range_map_delay_succ pre'.length n]
    rw [RetryResult.mk.injEq]
    refine ⟨rfl, ?_, rfl⟩
    show n + 1 + pre'.length = n + (pre'.length + 1)
    omega

/-- C7.  With the default `max_retry = 5`: when all 5 attempts fail
transiently (network-layer error, non-200 status, or a one-string-key
JSON body without the invalid-symbol marker — classified retryable by
`check_response`), the driver makes 5 attempts with linear backoff sleeps
30, 60, 90, 120 seconds and raises the last error; a response whose body
is a one-string-key JSON containing the invalid-symbol marker raises
`ValueError` at that attempt immediately, with no retry of it; non-200
and markerless one-string-key JSON bodies are classified as the
retryable `RequestException` class. -/
theorem retry_policy :
    (∀ a1 a2 a3 a4 a5 : RawAttempt,
      (∀ x ∈ [a1, a2, a3, a4, a5], isTransientAttempt x = true) →
      ∃ e, attemptOutcome a5 = .error e ∧
        runAndRetry [a1, a2, a3, a4, a5] = ⟨.error e, 5, [30, 60, 90, 120]⟩) ∧
    (∀ (pre : List RawAttempt) (k v : String) (post : List RawAttempt),
      (∀ x ∈ pre, isTransientAttempt x = true) →
      isSubstring invalidMarker v.data = true →
      runAndRetry (pre ++
          RawAttempt.response ⟨200, .jsonDict [(k, .str v)]⟩ :: post) =
        ⟨.error (.valueError v), 1 + pre.length,
          (List.range pre.length).map (fun i => 30 * (1 + i))⟩) ∧
    (∀ (s : Nat) (b : Body), s ≠ 200 →
      check_response ⟨s, b⟩ =
        .error (.requestException ("Unexpected Status Code: " ++ toString s))) ∧
    (∀ k v : String, isSubstring invalidMarker v.data = false →
      check_response ⟨200, .jsonDict [(k, .str v)]⟩ =
        .error (.requestException v)) := by
  refine ⟨?_, ?_, ?_, ?_⟩
  · intro a1 a2 a3 a4 a5 hall
    obtain ⟨e, he, her⟩ := transient_outcome a5 (hall a5 (by simp))
    refine ⟨e, he, ?_⟩
    have h := runAndRetryAux_exhausts e her [a1, a2, a3, a4] 1 a5
      (fun x hx => hall x (by
        simp only [List.mem_cons, List.not_mem_nil, or_false] at hx ⊢
        tauto)) he
    have hlist : [a1, a2, a3, a4] ++ [a5] = [a1, a2, a3, a4, a5] := rfl
    rw [hlist] at h
    unfold runAndRetry
    rw [h]
    rfl
  · intro pre k v post hpre hv
    have hout : attemptOutcome
        (RawAttempt.response ⟨200, .jsonDict [(k, .str v)]⟩) =
        .error (.valueError v) := by
      unfold attemptOutcome check_response
      simp [hv]
    unfold runAndRetry
    rw [runAndRetryAux_stops (.valueError v) rfl pre 1
      (RawAttempt.response ⟨200, .jsonDict [(k, .str v)]⟩) post hpre hout]
  · intro s b hs
    unfold check_response
    rw [if_pos hs]
  · intro k v hv
    unfold check_response
    simp [hv]

/-- Witness for C7: five network errors exhaust the retries with backoff
30, 60, 90, 120 and raise the last network error; an invalid-symbol JSON
response raises `ValueError` on the first attempt with no retries. -/
theorem retry_policy_witness :
    (∀ x ∈ [RawAttempt.netError, RawAttempt.netError, RawAttempt.netError,
        RawAttempt.netError, RawAttempt.netError], isTransientAttempt x = true) ∧
    (∃ e, attemptOutcome RawAttempt.netError = .error e ∧
      runAndRetry [RawAttempt.netError, RawAttempt.netError, RawAttempt.netError,
        RawAttempt.netError, RawAttempt.netError] =
        ⟨.error e, 5, [30, 60, 90, 120]⟩) ∧
    runAndRetry [RawAttempt.response
        ⟨200, .jsonDict [("Error Message", .str "Invalid API call for IBM")]⟩] =
      ⟨.error (.valueError "Invalid API call for IBM"), 1, []⟩ :=
  ⟨by decide,
    retry_policy.1 RawAttempt.netError RawAttempt.netError RawAttempt.netError
      RawAttempt.netError RawAttempt.netError (by decide),
    by
      have h := retry_policy.2.1 [] "Error Message" "Invalid API call for IBM" []
        (fun x hx => by simp at hx) (by decide)
      simpa using h⟩

/-! ### Aggregation (C4) -/

/-- Closing a run appends the reduced bar (nothing for an empty run). -/
theorem close_run_eq (run acc : List DataPoint) :
    close_run run acc = acc ++ (from_list run.reverse).toList := by
  unfold close_run
  cases from_list run.reverse <;> simp

/-- Unfolding `chunkRuns` on a non-empty input. -/
theorem chunkRuns_cons (tf : Date → String) (p : DataPoint)
    (rest : List DataPoint) :
    chunkRuns tf (p :: rest) =
      (p :: rest.takeWhile (fun q => tf q.timestamp == tf p.timestamp)) ::
        chunkRuns tf
          (rest.dropWhile (fun q => tf q.timestamp == tf p.timestamp)) := by
  rw [chunkRuns]

/-- Unfolding `runs_aggregated` on a non-empty input. -/
theorem runs_aggregated_cons (tf : Date → String) (p : DataPoint)
    (rest : List DataPoint) :
    runs_aggregated tf (p :: rest) =
      (from_list ((p :: rest.takeWhile
          (fun q => tf q.timestamp == tf p.timestamp)).reverse)).toList ++
        runs_aggregated tf
          (rest.dropWhile (fun q => tf q.timestamp == tf p.timestamp)) := by
  unfold runs_aggregated
  rw [chunkRuns_cons, List.filterMap_cons]
  cases from_list ((p :: rest.takeWhile
      (fun q => tf q.timestamp == tf p.timestamp)).reverse) <;> simp

/-- The aggregation loop, carrying a non-empty run of key `k`: it closes
the run extended by the adjacent same-key rows, then aggregates the
remaining runs. -/
theorem aggregate_loop_run (tf : Date → String) :
    ∀ (rows run : List DataPoint) (k : String) (acc : List DataPoint),
      run ≠ [] → (∀ q ∈ run, tf q.timestamp = k) →
      aggregate_loop tf rows (some k) run acc =
        acc ++ (from_list ((run ++ rows.takeWhile
            (fun q => tf q.timestamp == k)).reverse)).toList ++
          runs_aggregated tf
            (rows.dropWhile (fun q => tf q.timestamp == k)) := by
  intro rows
  induction rows with
  | nil =>
    intro run k acc hne hall
    show close_run run acc = _
    rw [close_run_eq]
    simp [runs_aggregated, chunkRuns]
  | cons p rest ih =>
    intro run k acc hne hall
    rw [aggregate_loop]
    by_cases hk : tf p.timestamp = k
    · rw [if_neg (by simp [hk])]
      rw [hk]
      rw [ih (run ++ [p]) k acc (by simp) ?hall']
      case hall' =>
        intro q hq
        rcases List.mem_append.mp hq with hq' | hq'
        · exact hall q hq'
        · have : q = p := by simpa using hq'
          rw [this, hk]
      rw [List.takeWhile_cons_of_pos (by simp [hk])]
      rw [List.dropWhile_cons_of_pos (by simp [hk])]
      simp [List.append_assoc]
    · rw [if_pos (by simp [hk])]
      rw [close_run_eq]
      rw [ih [p] (tf p.timestamp) (acc ++ (from_list run.reverse).toList)
        (by simp) (by intro q hq; rw [show q = p from by simpa using hq])]
      rw [List.takeWhile_cons_of_neg (by simp [hk])]
      rw [List.dropWhile_cons_of_neg (by simp [hk])]
      rw [runs_aggregated_cons]
      simp [List.append_assoc]

/-- The aggregation loop started on an empty run. -/
theorem aggregate_loop_start (tf : Date → String) (rows : List DataPoint)
    (prev : Option String) (acc : List DataPoint) :
    aggregate_loop tf rows prev [] acc = acc ++ runs_aggregated tf rows := by
  cases rows with
  | nil =>
    show close_run [] acc = _
    rw [close_run_eq]
    simp [runs_aggregated, chunkRuns, from_list]
  | cons p rest =>
    rw [aggregate_loop]
    have hclose : close_run [] acc = acc := by
      rw [close_run_eq]; simp [from_list]
    have hrun : aggregate_loop tf rest (some (tf p.timestamp)) [p] acc =
        acc ++ runs_aggregated tf (p :: rest) := by
      rw [aggregate_loop_run tf rest [p] (tf p.timestamp) acc (by simp)
        (by intro q hq; rw [show q = p from by simpa using hq])]
      rw [runs_aggregated_cons]
      simp [List.append_assoc]
    by_cases hp : some (tf p.timestamp) ≠ prev
    · rw [if_pos hp, hclose]
      exact hrun
    · rw [if_neg hp]
      show aggregate_loop tf rest (some (tf p.timestamp)) ([] ++ [p]) acc = _
      rw [List.nil_append]
      exact hrun

/-- The single-pass loop equals the run-by-run reduction. -/
theorem aggregate_series_eq_runs (tf : Date → String) (rows : List DataPoint) :
    aggregate_series tf rows = runs_aggregated tf rows := by
  unfold aggregate_series
  rw [aggregate_loop_start tf rows none []]
  simp

/-- The fold of `from_list` that computes the high: the result is the
seed or one of the entries, it dominates the seed, and it dominates every
entry. -/
theorem foldl_high_spec (f : DataPoint → Int) :
    ∀ (l : List DataPoint) (a : Int),
      (l.foldl (fun acc p => if acc < f p then f p else acc) a = a ∨
        l.foldl (fun acc p => if acc < f p then f p else acc) a ∈ l.map f) ∧
      a ≤ l.foldl (fun acc p => if acc < f p then f p else acc) a ∧
      ∀ q ∈ l, f q ≤ l.foldl (fun acc p => if acc < f p then f p else acc) a := by
  intro l
  induction l with
  | nil =>
    intro a
    exact ⟨Or.inl rfl, le_refl a, by simp⟩
  | cons x xs ih =>
    intro a
    rw [List.foldl_cons]
    obtain ⟨hmem, hle, hmax⟩ := ih (if a < f x then f x else a)
    have hab : a ≤ (if a < f x then f x else a) := by split <;> omega
    have hxb : f x ≤ (if a < f x then f x else a) := by split <;> omega
    refine ⟨?_, le_trans hab hle, ?_⟩
    · rcases hmem with h | h
      · rw [h]
        split
        · exact Or.inr (by simp)
        · exact Or.inl rfl
      · exact Or.inr (by simp [h])
    · intro q hq
      rcases List.mem_cons.mp hq with rfl | hq'
      · exact le_trans hxb hle
      · exact hmax q hq'

/-- The fold of `from_list` that computes the low (mirror image). -/
theorem foldl_low_spec (f : DataPoint → Int) :
    ∀ (l : List DataPoint) (a : Int),
      (l.foldl (fun acc p => if f p < acc then f p else acc) a = a ∨
        l.foldl (fun acc p => if f p < acc then f p else acc) a ∈ l.map f) ∧
      l.foldl (fun acc p => if f p < acc then f p else acc) a ≤ a ∧
      ∀ q ∈ l, l.foldl (fun acc p => if f p < acc then f p else acc) a ≤ f q := by
  intro l
  induction l with
  | nil =>
    intro a
    exact ⟨Or.inl rfl, le_refl a, by simp⟩
  | cons x xs ih =>
    intro a
    rw [List.foldl_cons]
    obtain ⟨hmem, hle, hmin⟩ := ih (if f x < a then f x else a)
    have hab : (if f x < a then f x else a) ≤ a := by split <;> omega
    have hxb : (if f x < a then f x else a) ≤ f x := by split <;> omega
    refine ⟨?_, le_trans hle hab, ?_⟩
    · rcases hmem with h | h
      · rw [h]
        split
        · exact Or.inr (by simp)
        · exact Or.inl rfl
      · exact Or.inr (by simp [h])
    · intro q hq
      rcases List.mem_cons.mp hq with rfl | hq'
      · exact le_trans hle hxb
      · exact hmin q hq'

/-- The volume fold sums the volumes on top of the seed. -/
theorem foldl_volume_spec :
    ∀ (l : List DataPoint) (a : Int),
      l.foldl (fun acc p => acc + p.volume) a =
        a + (l.map DataPoint.volume).sum := by
  intro l
  induction l with
  | nil => intro a; simp
  | cons x xs ih =>
    intro a
    rw [List.foldl_cons, ih]
    simp [List.map_cons, List.sum_cons]
    omega

/-- `DataPoint.from_list` on a non-empty list: timestamp and open from
the first bar, close from the last, high the maximum, low the minimum,
volume the sum. -/
theorem from_list_spec (first : DataPoint) (rest' : List DataPoint) :
    ∃ out, from_list (first :: rest') = some out ∧
      out.timestamp = first.timestamp ∧
      out.val_open = first.val_open ∧
      out.val_close =
        ((first :: rest').getLast (List.cons_ne_nil _ _)).val_close ∧
      out.val_high ∈ (first :: rest').map DataPoint.val_high ∧
      (∀ v ∈ (first :: rest').map DataPoint.val_high, v ≤ out.val_high) ∧
      out.val_low ∈ (first :: rest').map DataPoint.val_low ∧
      (∀ v ∈ (first :: rest').map DataPoint.val_low, out.val_low ≤ v) ∧
      out.volume = ((first :: rest').map DataPoint.volume).sum := by
  refine ⟨_, rfl, rfl, rfl, rfl, ?_, ?_, ?_, ?_, ?_⟩
  · obtain ⟨hmem, hle, _⟩ := foldl_high_spec DataPoint.val_high
      (first :: rest') first.val_high
    rcases hmem with h | h
    · rw [h]; simp
    · exact h
  · intro v hv
    rcases List.mem_map.mp hv with ⟨q, hq, rfl⟩
    exact (foldl_high_spec DataPoint.val_high (first :: rest')
      first.val_high).2.2 q hq
  · obtain ⟨hmem, hle, _⟩ := foldl_low_spec DataPoint.val_low
      (first :: rest') first.val_low
    rcases hmem with h | h
    · rw [h]; simp
    · exact h
  · intro v hv
    rcases List.mem_map.mp hv with ⟨q, hq, rfl⟩
    exact (foldl_low_spec DataPoint.val_low (first :: rest')
      first.val_low).2.2 q hq
  · show (first :: rest').foldl (fun acc p => acc + p.volume) 0 =
      ((first :: rest').map DataPoint.volume).sum
    rw [foldl_volume_spec]
    omega

/-- In a strictly descending run the last bar has the minimal
timestamp. -/
theorem getLast_rata_min :
    ∀ (p : DataPoint) (rest : List DataPoint),
      (p :: rest).Pairwise
        (fun a b => rata_die b.timestamp < rata_die a.timestamp) →
      ∀ q ∈ p :: rest,
        rata_die (((p :: rest).getLast (List.cons_ne_nil p rest)).timestamp) ≤
          rata_die q.timestamp := by
  intro p rest
  induction rest generalizing p with
  | nil =>
    intro _ q hq
    rw [show q = p from by simpa using hq]
    exact le_refl _
  | cons x xs ih =>
    intro hp q hq
    rw [List.getLast_cons (List.cons_ne_nil x xs)]
    rcases List.mem_cons.mp hq with rfl | hq'
    · have hmem := List.getLast_mem (List.cons_ne_nil x xs)
      have := (List.pairwise_cons.mp hp).1 _ hmem
      omega
    · exact ih x (List.Pairwise.of_cons hp) q hq'

/-- C4.  For every daily input ordered descending by timestamp, the
aggregation behind `weekly_series` (ISO year-week key) and
`monthly_series` (year-month key) reduces each maximal run of
consecutive rows sharing the period key to one bar — reversing the run
to ascending order and applying `DataPoint.from_list` — whose timestamp
and open are the chronologically earliest bar's, close the latest bar's,
high the maximum, low the minimum and volume the sum; and the concrete
10-business-day sequence 2023-01-02..2023-01-13 spanning ISO weeks
2023-W1/2023-W2 yields exactly 2 weekly rows with those per-week
values. -/
theorem aggregation_correct :
    (∀ (tf : Date → String) (rows : List DataPoint),
      aggregate_series tf rows = runs_aggregated tf rows) ∧
    (∀ rows, weekly_series rows = aggregate_series weeklyKey rows) ∧
    (∀ rows, monthly_series rows = aggregate_series monthKey rows) ∧
    (∀ (p : DataPoint) (rest : List DataPoint),
      (p :: rest).Pairwise
        (fun a b => rata_die b.timestamp < rata_die a.timestamp) →
      ∃ out, from_list (p :: rest).reverse = some out ∧
        out.timestamp =
          ((p :: rest).getLast (List.cons_ne_nil p rest)).timestamp ∧
        (∀ q ∈ p :: rest, rata_die out.timestamp ≤ rata_die q.timestamp) ∧
        out.val_open =
          ((p :: rest).getLast (List.cons_ne_nil p rest)).val_open ∧
        out.val_close = p.val_close ∧
        out.val_high ∈ (p :: rest).map DataPoint.val_high ∧
        (∀ v ∈ (p :: rest).map DataPoint.val_high, v ≤ out.val_high) ∧
        out.val_low ∈ (p :: rest).map DataPoint.val_low ∧
        (∀ v ∈ (p :: rest).map DataPoint.val_low, out.val_low ≤ v) ∧
        out.volume = ((p :: rest).map DataPoint.volume).sum) ∧
    weekly_series
      [⟨⟨2023, 1, 13⟩, 100, 105, 95, 102, 1000⟩,
       ⟨⟨2023, 1, 12⟩, 90, 95, 85, 92, 900⟩,
       ⟨⟨2023, 1, 11⟩, 80, 85, 75, 82, 800⟩,
       ⟨⟨2023, 1, 10⟩, 70, 75, 65, 72, 700⟩,
       ⟨⟨2023, 1, 9⟩, 60, 65, 55, 62, 600⟩,
       ⟨⟨2023, 1, 6⟩, 50, 55, 45, 52, 500⟩,
       ⟨⟨2023, 1, 5⟩, 40, 45, 35, 42, 400⟩,
       ⟨⟨2023, 1, 4⟩, 30, 35, 25, 32, 300⟩,
       ⟨⟨2023, 1, 3⟩, 20, 25, 15, 22, 200⟩,
       ⟨⟨2023, 1, 2⟩, 10, 15, 5, 12, 100⟩] =
      [⟨⟨2023, 1, 9⟩, 60, 105, 55, 102, 4000⟩,
       ⟨⟨2023, 1, 2⟩, 10, 55, 5, 52, 1500⟩] := by
  refine ⟨aggregate_series_eq_runs, fun _ => rfl, fun _ => rfl, ?_, by rfl⟩
  intro p rest hdesc
  rcases hrev : (p :: rest).reverse with _ | ⟨f1, r1⟩
  · exact absurd hrev (by simp)
  · obtain ⟨out, hsome, hts, hopen, hclose, hhmem, hhmax, hlmem, hlmin, hvol⟩ :=
      from_list_spec f1 r1
    have hf1 : (p :: rest).getLast (List.cons_ne_nil p rest) = f1 := by
      have h1 : (p :: rest).getLast? = some f1 := by
        have h2 := congrArg List.reverse hrev
        rw [List.reverse_reverse] at h2
        rw [h2]
        simp [List.getLast?_concat]
      rw [List.getLast?_eq_getLast (p :: rest) (List.cons_ne_nil p rest)] at h1
      exact Option.some.inj h1
    have hlast : (f1 :: r1).getLast (List.cons_ne_nil f1 r1) = p := by
      have h1 : (f1 :: r1).getLast? = some p := by
        rw [← hrev, List.getLast?_reverse]
        rfl
      rw [List.getLast?_eq_getLast (f1 :: r1) (List.cons_ne_nil f1 r1)] at h1
      exact Option.some.inj h1
    have hmapr : ∀ g : DataPoint → Int,
        (f1 :: r1).map g = ((p :: rest).map g).reverse := by
      intro g
      rw [← hrev, List.map_reverse]
    refine ⟨out, hsome, ?_, ?_, ?_, ?_, ?_, ?_, ?_, ?_, ?_⟩
    · rw [hts]
      exact (congrArg DataPoint.timestamp hf1).symm
    · intro q hq
      have h := getLast_rata_min p rest hdesc q hq
      rw [hts, ← congrArg DataPoint.timestamp hf1]
      exact h
    · rw [hopen]
      exact (congrArg DataPoint.val_open hf1).symm
    · rw [hclose]
      exact congrArg DataPoint.val_close hlast
    · rw [hmapr DataPoint.val_high] at hhmem
      exact List.mem_reverse.mp hhmem
    · intro v hv
      exact hhmax v (by rw [hmapr DataPoint.val_high]; exact List.mem_reverse.mpr hv)
    · rw [hmapr DataPoint.val_low] at hlmem
      exact List.mem_reverse.mp hlmem
    · intro v hv
      exact hlmin v (by rw [hmapr DataPoint.val_low]; exact List.mem_reverse.mpr hv)
    · rw [hvol, hmapr DataPoint.volume, List.sum_reverse]

/-- Witness for C4 at a concrete two-bar descending run. -/
theorem aggregation_correct_witness :
    ([⟨⟨2023, 1, 13⟩, 100, 105, 95, 102, 1000⟩,
      ⟨⟨2023, 1, 12⟩, 90, 95, 85, 92, 900⟩] : List DataPoint).Pairwise
        (fun a b => rata_die b.timestamp < rata_die a.timestamp) ∧
    ∃ out, from_list
        ([⟨⟨2023, 1, 13⟩, 100, 105, 95, 102, 1000⟩,
          ⟨⟨2023, 1, 12⟩, 90, 95, 85, 92, 900⟩] : List DataPoint).reverse =
        some out ∧
      out.timestamp =
        (([⟨⟨2023, 1, 13⟩, 100, 105, 95, 102, 1000⟩,
          ⟨⟨2023, 1, 12⟩, 90, 95, 85, 92, 900⟩] : List DataPoint).getLast
          (List.cons_ne_nil _ _)).timestamp ∧
      (∀ q ∈ ([⟨⟨2023, 1, 13⟩, 100, 105, 95, 102, 1000⟩,
          ⟨⟨2023, 1, 12⟩, 90, 95, 85, 92, 900⟩] : List DataPoint),
        rata_die out.timestamp ≤ rata_die q.timestamp) ∧
      out.val_open =
        (([⟨⟨2023, 1, 13⟩, 100, 105, 95, 102, 1000⟩,
          ⟨⟨2023, 1, 12⟩, 90, 95, 85, 92, 900⟩] : List DataPoint).getLast
          (List.cons_ne_nil _ _)).val_open ∧
      out.val_close = (102 : Int) ∧
      out.val_high ∈ ([⟨⟨2023, 1, 13⟩, 100, 105, 95, 102, 1000⟩,
          ⟨⟨2023, 1, 12⟩, 90, 95, 85, 92, 900⟩] : List DataPoint).map
          DataPoint.val_high ∧
      (∀ v ∈ ([⟨⟨2023, 1, 13⟩, 100, 105, 95, 102, 1000⟩,
          ⟨⟨2023, 1, 12⟩, 90, 95, 85, 92, 900⟩] : List DataPoint).map
          DataPoint.val_high, v ≤ out.val_high) ∧
      out.val_low ∈ ([⟨⟨2023, 1, 13⟩, 100, 105, 95, 102, 1000⟩,
          ⟨⟨2023, 1, 12⟩, 90, 95, 85, 92, 900⟩] : List DataPoint).map
          DataPoint.val_low ∧
      (∀ v ∈ ([⟨⟨2023, 1, 13⟩, 100, 105, 95, 102, 1000⟩,
          ⟨⟨2023, 1, 12⟩, 90, 95, 85, 92, 900⟩] : List DataPoint).map
          DataPoint.val_low, out.val_low ≤ v) ∧
      out.volume = (([⟨⟨2023, 1, 13⟩, 100, 105, 95, 102, 1000⟩,
          ⟨⟨2023, 1, 12⟩, 90, 95, 85, 92, 900⟩] : List DataPoint).map
          DataPoint.volume).sum :=
  ⟨by decide,
    aggregation_correct.2.2.2.1 ⟨⟨2023, 1, 13⟩, 100, 105, 95, 102, 1000⟩
      [⟨⟨2023, 1, 12⟩, 90, 95, 85, 92, 900⟩] (by decide)⟩

end Virgo
